import Mathlib

/-!
# A fixed-capacity LRU cache (`lru.go`)

Shallow embedding of `SimpleLRU` and of its wrapper `LRU` from `lru.go`, and the
properties of their public operations.

## Modelling choices

* `interface{}` values are an arbitrary type `V`; the pair `(nil, false)` that a
  failed lookup returns is `(none, false)` and a successful one is
  `(some v, true)`.
* A `*list.Element` is an address, a natural number.  The doubly linked list
  `l.data` is the Lean list of its elements, front first, each carrying its own
  address and the entity its `Value` points to.  The map `l.lookup` is a list of
  `(key, address)` bindings.
* The eviction callback is a Go closure acting on the caller's world; it is a
  function `String → V → W → W` on an arbitrary world type `W`, and `Set`
  threads the world through: such a callback returns and does not call the
  cache.  A callback that reads the cache it is configured on is an
  `ObservingCallback`, given the cache as it is at the call; a callback that
  may panic is a `PanickingCallback`, and a call then ends in an `Outcome`; a
  callback that changes the cache is outside this model.
* The lock of `LRU` is free or held; calls run one after the other, and `Lock`
  on a held lock does not return.
* A Go panic is the `error` branch of `Except Fault`.
-/

namespace Collections

/-- The ways an operation can fail to return. -/
inductive Fault where
  /-- `panic("cap must be positive")` in the constructor. -/
  | capNegative
  /-- A field of a nil `*list.Element` is read (`l.data.Back()` of an empty list). -/
  | nilDereference
  /-- An address held by the map names no element of the list: the model has no
  contents for such an element. -/
  | danglingElement
  /-- The bound of the model on the iterations of the `evict` loop is used up. -/
  | outOfFuel
  /-- The method `Lock` of a lock that is held: the caller waits, and does not
  return while the holder keeps the lock. -/
  | blocked
  /-- The method `Unlock` of a lock that is not held, a fatal error of the runtime. -/
  | unlockOfUnlocked
deriving DecidableEq, Repr

/-- The struct `entity`. -/
structure entity (V : Type) where
  key : String
  val : V
deriving DecidableEq, Repr

/-- A `list.Element` of `container/list`: its address and the entity that its
`Value` field points to. -/
structure Element (V : Type) where
  ptr : Nat
  Value : entity V
deriving DecidableEq, Repr

/-- The type `EvictCallback`, `func(string, interface{})`, as an action on the
world `W` of the caller. -/
abbrev EvictCallback (W V : Type) := String → V → W → W

/-! ## The Go map `map[string]*list.Element` -/

/-- The read `m[key]` with the comma-ok form: `none` when the key is unbound. -/
def mapGet : List (String × Nat) → String → Option Nat
  | [], _ => none
  | (k, p) :: m, key => if k = key then some p else mapGet m key

/-- The assignment `m[key] = p`: rebinds the key where it is bound, adds a
binding otherwise. -/
def mapSet : List (String × Nat) → String → Nat → List (String × Nat)
  | [], key, p => [(key, p)]
  | (k, q) :: m, key, p => if k = key then (key, p) :: m else (k, q) :: mapSet m key p

/-- The builtin `delete(m, key)`. -/
def mapDelete (m : List (String × Nat)) (key : String) : List (String × Nat) :=
  m.filter (fun b => decide (b.1 ≠ key))

/-! ## The operations of `container/list` that `lru.go` calls -/

namespace GoList

/-- The element at address `p`, when the list holds it. -/
def elementAt {V : Type} (data : List (Element V)) (p : Nat) : Option (Element V) :=
  data.find? (fun e => decide (e.ptr = p))

/-- The method `Len`. -/
def Len {V : Type} (data : List (Element V)) : Int := (data.length : Int)

/-- The method `Back`: the last element, `none` for the nil pointer. -/
def Back {V : Type} (data : List (Element V)) : Option (Element V) := data.getLast?

/-- The method `PushFront`, given the address of the element it allocates. -/
def PushFront {V : Type} (data : List (Element V)) (p : Nat) (e : entity V) :
    List (Element V) :=
  ⟨p, e⟩ :: data

/-- The method `Remove`: unlinks the element at `p`; a list that does not hold
the element is left as it is. -/
def Remove {V : Type} (data : List (Element V)) (p : Nat) : List (Element V) :=
  data.filter (fun e => decide (e.ptr ≠ p))

/-- The method `MoveToFront`: a list that does not hold the element is left as
it is. -/
def MoveToFront {V : Type} (data : List (Element V)) (p : Nat) : List (Element V) :=
  match elementAt data p with
  | none => data
  | some e => e :: Remove data p

/-- The store `ele.Value.(*entity).val = val` through the address `p`. -/
def assignVal {V : Type} (data : List (Element V)) (p : Nat) (val : V) :
    List (Element V) :=
  data.map (fun e => if e.ptr = p then { e with Value := { e.Value with val := val } } else e)

end GoList

/-- The struct `SimpleLRU`. -/
structure SimpleLRU (W V : Type) where
  cap : Int
  evictCallback : Option (EvictCallback W V)
  lookup : List (String × Nat)
  data : List (Element V)

/-- The call of a callback that may be nil: `if cb != nil { cb(key, val) }`. -/
def callEvict {W V : Type} (cb : Option (EvictCallback W V)) (key : String) (val : V)
    (w : W) : W :=
  match cb with
  | none => w
  | some f => f key val w

namespace SimpleLRU

variable {W V : Type}

/-- An address that no element of the list and no binding of the map uses: the
address of the element that `PushFront` allocates. -/
def freshPtr (l : SimpleLRU W V) : Nat :=
  (l.data.map (fun e => e.ptr) ++ l.lookup.map (fun b => b.2)).foldr max 0 + 1

/-- The constructor `NewSimpleLRUWithEvict`. -/
def NewSimpleLRUWithEvict (cap : Int) (callback : Option (EvictCallback W V)) :
    Except Fault (SimpleLRU W V) :=
  if cap < 0 then .error Fault.capNegative
  else .ok { cap := cap, evictCallback := callback, lookup := [], data := [] }

/-- The constructor `NewSimpleLRU`. -/
def NewSimpleLRU (cap : Int) : Except Fault (SimpleLRU W V) :=
  NewSimpleLRUWithEvict cap none

/-- The method `Len`. -/
def Len (l : SimpleLRU W V) : Int := GoList.Len l.data

/-- The loop of the method `evict`, with a bound on its iterations. -/
def evictLoop : Nat → SimpleLRU W V → W → Except Fault (SimpleLRU W V × W)
  | fuel, l, w =>
    if l.Len > l.cap then
      match GoList.Back l.data with
      | none => .error Fault.nilDereference
      | some ele =>
        match fuel with
        | 0 => .error Fault.outOfFuel
        | fuel + 1 =>
          let e := ele.Value
          let w1 := callEvict l.evictCallback e.key e.val w
          let l1 := { l with lookup := mapDelete l.lookup e.key }
          let l2 := { l1 with data := GoList.Remove l1.data ele.ptr }
          evictLoop fuel l2 w1
    else .ok (l, w)

/-- The method `evict`: every iteration unlinks an element, so the length of
the list bounds the iterations. -/
def evict (l : SimpleLRU W V) (w : W) : Except Fault (SimpleLRU W V × W) :=
  evictLoop l.data.length l w

/-- The method `Set`. -/
def Set (l : SimpleLRU W V) (key : String) (val : V) (w : W) :
    Except Fault (SimpleLRU W V × W) :=
  match mapGet l.lookup key with
  | some ele =>
    match GoList.elementAt l.data ele with
    | none => .error Fault.danglingElement
    | some _ =>
      let l1 := { l with data := GoList.assignVal l.data ele val }
      let l2 := { l1 with data := GoList.MoveToFront l1.data ele }
      let l3 := { l2 with lookup := mapSet l2.lookup key ele }
      evict l3 w
  | none =>
    let ele := l.freshPtr
    let l1 := { l with data := GoList.PushFront l.data ele ⟨key, val⟩ }
    let l2 := { l1 with lookup := mapSet l1.lookup key ele }
    evict l2 w

/-- The method `Get`. -/
def Get (l : SimpleLRU W V) (key : String) :
    Except Fault (SimpleLRU W V × (Option V × Bool)) :=
  match mapGet l.lookup key with
  | none => .ok (l, (none, false))
  | some ele =>
    let l1 := { l with data := GoList.MoveToFront l.data ele }
    match GoList.elementAt l.data ele with
    | none => .error Fault.danglingElement
    | some e => .ok (l1, (some e.Value.val, true))

/-- The method `Remove`. -/
def Remove (l : SimpleLRU W V) (key : String) : SimpleLRU W V :=
  match mapGet l.lookup key with
  | some ele =>
    let l1 := { l with data := GoList.Remove l.data ele }
    { l1 with lookup := mapDelete l1.lookup key }
  | none => l

/-- The method `SimpleGet`. -/
def SimpleGet (l : SimpleLRU W V) (key : String) :
    Except Fault (SimpleLRU W V × (Option V × Bool)) :=
  match mapGet l.lookup key with
  | none => .ok (l, (none, false))
  | some ele =>
    match GoList.elementAt l.data ele with
    | none => .error Fault.danglingElement
    | some e => .ok (l, (some e.Value.val, true))

/-- The method `Clear`. -/
def Clear (l : SimpleLRU W V) : SimpleLRU W V :=
  { l with lookup := [], data := [] }

end SimpleLRU

/-! ## Sequences of calls -/

/-- A call of a public method of `SimpleLRU`. -/
inductive Op (V : Type) where
  | Set (key : String) (val : V)
  | Get (key : String)
  | SimpleGet (key : String)
  | Remove (key : String)
  | Clear
  | Len
deriving DecidableEq, Repr

/-- What a call returns. -/
inductive Ret (V : Type) where
  | unit
  | value (val : Option V) (ok : Bool)
  | len (n : Int)
deriving DecidableEq, Repr

/-- One call on a cache, in a world. -/
def step {W V : Type} (l : SimpleLRU W V) (w : W) :
    Op V → Except Fault (SimpleLRU W V × W × Ret V)
  | .Set key val =>
    match l.Set key val w with
    | .error f => .error f
    | .ok (l1, w1) => .ok (l1, w1, Ret.unit)
  | .Get key =>
    match l.Get key with
    | .error f => .error f
    | .ok (l1, r) => .ok (l1, w, Ret.value r.1 r.2)
  | .SimpleGet key =>
    match l.SimpleGet key with
    | .error f => .error f
    | .ok (l1, r) => .ok (l1, w, Ret.value r.1 r.2)
  | .Remove key => .ok (l.Remove key, w, Ret.unit)
  | .Clear => .ok (l.Clear, w, Ret.unit)
  | .Len => .ok (l, w, Ret.len l.Len)

/-- A sequence of calls, one after the other; the results are listed in the
order of the calls. -/
def run {W V : Type} (l : SimpleLRU W V) (w : W) :
    List (Op V) → Except Fault (SimpleLRU W V × W × List (Ret V))
  | [] => .ok (l, w, [])
  | op :: ops =>
    match step l w op with
    | .error f => .error f
    | .ok (l1, w1, r) =>
      match run l1 w1 ops with
      | .error f => .error f
      | .ok (l2, w2, rs) => .ok (l2, w2, r :: rs)

/-- The entities of the cache in recency order, front first. -/
def entries {W V : Type} (l : SimpleLRU W V) : List (entity V) :=
  l.data.map (fun e => e.Value)

/-- The keys of the cache in recency order, front first. -/
def keysOf {W V : Type} (l : SimpleLRU W V) : List String :=
  l.data.map (fun e => e.Value.key)

/-- A callback that appends its arguments to a log. -/
def recordEvict {V : Type} : EvictCallback (List (String × V)) V :=
  fun key val log => log ++ [(key, val)]

/-- The calls `cb(e.key, e.val)` for the entities of a list, in the order of the list. -/
def callEvictAll {W V : Type} (cb : Option (EvictCallback W V)) (es : List (entity V))
    (w : W) : W :=
  es.foldl (fun w e => callEvict cb e.key e.val w) w

/-! ## The representation invariant and the reachable states -/

/-- The map and the list describe the same entries: no address and no key
occurs twice in the list, and the bindings of the map are the pairs
`(key, address)` of the elements of the list. -/
structure WF {W V : Type} (l : SimpleLRU W V) : Prop where
  ptrs : (l.data.map (fun e => e.ptr)).Nodup
  keys : (l.data.map (fun e => e.Value.key)).Nodup
  index : l.lookup.Perm (l.data.map (fun e => (e.Value.key, e.ptr)))
  capNonneg : 0 ≤ l.cap

/-- The invariant of the states between two calls. -/
def Inv {W V : Type} (l : SimpleLRU W V) : Prop :=
  WF l ∧ l.Len ≤ l.cap

/-- The states that a cache goes through: those that a sequence of calls
produces from a cache that the constructor returns. -/
def Reachable {W V : Type} (l : SimpleLRU W V) : Prop :=
  ∃ (cap : Int) (cb : Option (EvictCallback W V)) (l0 : SimpleLRU W V) (w0 : W)
    (ops : List (Op V)) (w : W) (rs : List (Ret V)),
    SimpleLRU.NewSimpleLRUWithEvict cap cb = .ok l0 ∧ run l0 w0 ops = .ok (l, w, rs)

/-! ## The recency order after a call, from the recency order before it -/

/-- The entities a call leaves, front first, from the entities `es` it finds,
for a capacity `c`. -/
def nextEntries {V : Type} (c : Nat) (es : List (entity V)) : Op V → List (entity V)
  | .Set key val =>
    ((⟨key, val⟩ : entity V) :: es.filter (fun e => decide (e.key ≠ key))).take c
  | .Get key =>
    match es.find? (fun e => decide (e.key = key)) with
    | some e => e :: es.filter (fun e => decide (e.key ≠ key))
    | none => es
  | .SimpleGet _ => es
  | .Remove key => es.filter (fun e => decide (e.key ≠ key))
  | .Clear => []
  | .Len => es

/-- The entities a call evicts, in the order of the evictions. -/
def evictedBy {V : Type} (c : Nat) (es : List (entity V)) : Op V → List (entity V)
  | .Set key val =>
    (((⟨key, val⟩ : entity V) :: es.filter (fun e => decide (e.key ≠ key))).drop c).reverse
  | _ => []

/-- The result of a lookup of a key among the entities `es`. -/
def lookupResult {V : Type} (es : List (entity V)) (key : String) : Ret V :=
  match es.find? (fun e => decide (e.key = key)) with
  | some e => Ret.value (some e.val) true
  | none => Ret.value none false

/-- The result of a call that finds the entities `es`. -/
def resultOf {V : Type} (es : List (entity V)) : Op V → Ret V
  | .Set _ _ => Ret.unit
  | .Get key => lookupResult es key
  | .SimpleGet key => lookupResult es key
  | .Remove _ => Ret.unit
  | .Clear => Ret.unit
  | .Len => Ret.len (es.length : Int)

/-- The entities a sequence of calls leaves. -/
def nextEntriesAll {V : Type} (c : Nat) : List (entity V) → List (Op V) → List (entity V)
  | es, [] => es
  | es, op :: ops => nextEntriesAll c (nextEntries c es op) ops

/-- The entities a sequence of calls evicts, in the order of the evictions. -/
def evictedByAll {V : Type} (c : Nat) : List (entity V) → List (Op V) → List (entity V)
  | _, [] => []
  | es, op :: ops => evictedBy c es op ++ evictedByAll c (nextEntries c es op) ops

/-- The results of a sequence of calls. -/
def resultsOf {V : Type} (c : Nat) : List (entity V) → List (Op V) → List (Ret V)
  | _, [] => []
  | es, op :: ops => resultOf es op :: resultsOf c (nextEntries c es op) ops

/-- The value of the last `Set` of a key in a sequence of calls. -/
def lastSet {V : Type} : List (Op V) → String → Option V
  | [], _ => none
  | op :: ops, key =>
    match lastSet ops key with
    | some v => some v
    | none =>
      match op with
      | .Set k v => if k = key then some v else none
      | _ => none

/-- The recency order of the test `testLRU` while it inserts: the key read before
every insertion, `e0`, stays second, behind the last key inserted; `rp` lists
the entities inserted after `e0`, the last inserted first. -/
def refreshedOrder {V : Type} (e0 : entity V) : List (entity V) → List (entity V)
  | [] => [e0]
  | x :: xs => x :: e0 :: xs

/-- The calls of the loop of `testLRU`: before the insertion of each entity of the
list, the key `k0` is read. -/
def readThenSet {V : Type} (k0 : String) (es : List (entity V)) : List (Op V) :=
  es.flatMap (fun e => [Op.Get k0, Op.Set e.key e.val])

/-! ## The wrapper `LRU` -/

/-- The lock `sync.RWMutex`, as far as `lru.go` uses it: whether a writer holds it. -/
structure RWMutex where
  locked : Bool
deriving DecidableEq, Repr

namespace RWMutex

/-- The method `Lock`: it takes a free lock; on a lock that is held the caller waits. -/
def Lock (mu : RWMutex) : Except Fault RWMutex :=
  if mu.locked then .error Fault.blocked else .ok { locked := true }

/-- The method `Unlock`: it frees a lock that is held. -/
def Unlock (mu : RWMutex) : Except Fault RWMutex :=
  if mu.locked then .ok { locked := false } else .error Fault.unlockOfUnlocked

end RWMutex

/-- The struct `LRU`. -/
structure LRU (W V : Type) where
  mu : RWMutex
  simple : SimpleLRU W V

namespace LRU

variable {W V : Type}

/-- The constructor `NewLRUWithEvict`; `sync.RWMutex{}` is a free lock. -/
def NewLRUWithEvict (cap : Int) (callback : Option (EvictCallback W V)) :
    Except Fault (LRU W V) :=
  match SimpleLRU.NewSimpleLRUWithEvict cap callback with
  | .error f => .error f
  | .ok s => .ok { mu := { locked := false }, simple := s }

/-- The constructor `NewLRU`. -/
def NewLRU (cap : Int) : Except Fault (LRU W V) :=
  NewLRUWithEvict cap none

/-- The method `Set` of `LRU`. -/
def Set (l : LRU W V) (key : String) (val : V) (w : W) : Except Fault (LRU W V × W) :=
  match l.mu.Lock with
  | .error f => .error f
  | .ok mu1 =>
    match l.simple.Set key val w with
    | .error f => .error f
    | .ok (s, w1) =>
      match mu1.Unlock with
      | .error f => .error f
      | .ok mu2 => .ok ({ mu := mu2, simple := s }, w1)

/-- The method `Get` of `LRU`. -/
def Get (l : LRU W V) (key : String) : Except Fault (LRU W V × (Option V × Bool)) :=
  match l.mu.Lock with
  | .error f => .error f
  | .ok mu1 =>
    match l.simple.Get key with
    | .error f => .error f
    | .ok (s, r) =>
      match mu1.Unlock with
      | .error f => .error f
      | .ok mu2 => .ok ({ mu := mu2, simple := s }, r)

/-- The method `Len` of `LRU`: it calls `l.simple.Len()` and nothing else. -/
def Len (l : LRU W V) : Int :=
  l.simple.Len

/-- The method `Remove` of `LRU`. -/
def Remove (l : LRU W V) (key : String) : Except Fault (LRU W V) :=
  match l.mu.Lock with
  | .error f => .error f
  | .ok mu1 =>
    let s := l.simple.Remove key
    match mu1.Unlock with
    | .error f => .error f
    | .ok mu2 => .ok { mu := mu2, simple := s }

end LRU

/-- A call of a method of the interface `LRUInterface`. -/
inductive Call (V : Type) where
  | Set (key : String) (val : V)
  | Get (key : String)
  | Remove (key : String)
  | Len
deriving DecidableEq, Repr

/-- The call of `SimpleLRU` behind a call of the interface. -/
def Call.toOp {V : Type} : Call V → Op V
  | .Set key val => Op.Set key val
  | .Get key => Op.Get key
  | .Remove key => Op.Remove key
  | .Len => Op.Len

/-- One call of the interface on an `LRU`, in a world. -/
def LRU.step {W V : Type} (l : LRU W V) (w : W) :
    Call V → Except Fault (LRU W V × W × Ret V)
  | .Set key val =>
    match l.Set key val w with
    | .error f => .error f
    | .ok (l1, w1) => .ok (l1, w1, Ret.unit)
  | .Get key =>
    match l.Get key with
    | .error f => .error f
    | .ok (l1, r) => .ok (l1, w, Ret.value r.1 r.2)
  | .Remove key =>
    match l.Remove key with
    | .error f => .error f
    | .ok l1 => .ok (l1, w, Ret.unit)
  | .Len => .ok (l, w, Ret.len l.Len)

/-- A sequence of calls of the interface on an `LRU`, one after the other. -/
def LRU.run {W V : Type} (l : LRU W V) (w : W) :
    List (Call V) → Except Fault (LRU W V × W × List (Ret V))
  | [] => .ok (l, w, [])
  | c :: cs =>
    match LRU.step l w c with
    | .error f => .error f
    | .ok (l1, w1, r) =>
      match LRU.run l1 w1 cs with
      | .error f => .error f
      | .ok (l2, w2, rs) => .ok (l2, w2, r :: rs)

/-! ## A callback that reads the cache -/

/-- The cache as a callback sees it when `evict` calls it: the fields of the cache
at the call. The callback field of the view is nil: a callback that calls
`Set` again is outside the model. -/
def cacheView {W V : Type} (l : SimpleLRU W V) : SimpleLRU Unit V :=
  { cap := l.cap, evictCallback := none, lookup := l.lookup, data := l.data }

/-- An `EvictCallback` that is a closure over the cache it is configured on and
reads it: besides the key and the value it is given what the cache is when it
is called. -/
abbrev ObservingCallback (W V : Type) := SimpleLRU Unit V → String → V → W → W

/-- The call of an observing callback that may be nil. -/
def callObserving {W V : Type} (cb : Option (ObservingCallback W V))
    (view : SimpleLRU Unit V) (key : String) (val : V) (w : W) : W :=
  match cb with
  | none => w
  | some f => f view key val w

/-- The loop of the method `evict` for an observing callback `cb` in the place of
the field `evictCallback`: the statements of the loop in the order of
`lru.go`, the call of the callback first, on the cache as it is then. -/
def SimpleLRU.evictLoopObserved {W V : Type} (cb : Option (ObservingCallback W V)) :
    Nat → SimpleLRU W V → W → Except Fault (SimpleLRU W V × W)
  | fuel, l, w =>
    if l.Len > l.cap then
      match GoList.Back l.data with
      | none => .error Fault.nilDereference
      | some ele =>
        match fuel with
        | 0 => .error Fault.outOfFuel
        | fuel + 1 =>
          let e := ele.Value
          let w1 := callObserving cb (cacheView l) e.key e.val w
          let l1 := { l with lookup := mapDelete l.lookup e.key }
          let l2 := { l1 with data := GoList.Remove l1.data ele.ptr }
          SimpleLRU.evictLoopObserved cb fuel l2 w1
    else .ok (l, w)

/-- The method `evict` for an observing callback. -/
def SimpleLRU.evictObserved {W V : Type} (cb : Option (ObservingCallback W V))
    (l : SimpleLRU W V) (w : W) : Except Fault (SimpleLRU W V × W) :=
  SimpleLRU.evictLoopObserved cb l.data.length l w

/-- The method `Set` for an observing callback. -/
def SimpleLRU.SetObserved {W V : Type} (cb : Option (ObservingCallback W V))
    (l : SimpleLRU W V) (key : String) (val : V) (w : W) :
    Except Fault (SimpleLRU W V × W) :=
  match mapGet l.lookup key with
  | some ele =>
    match GoList.elementAt l.data ele with
    | none => .error Fault.danglingElement
    | some _ =>
      let l1 := { l with data := GoList.assignVal l.data ele val }
      let l2 := { l1 with data := GoList.MoveToFront l1.data ele }
      let l3 := { l2 with lookup := mapSet l2.lookup key ele }
      SimpleLRU.evictObserved cb l3 w
  | none =>
    let ele := l.freshPtr
    let l1 := { l with data := GoList.PushFront l.data ele ⟨key, val⟩ }
    let l2 := { l1 with lookup := mapSet l1.lookup key ele }
    SimpleLRU.evictObserved cb l2 w

/-- What a callback notes of the cache when it is called on `(key, val)`: the
result of `SimpleGet(key)` and of `Len()` on the cache at the call. -/
structure Observation (V : Type) where
  key : String
  val : V
  found : Option (Option V × Bool)
  len : Int
deriving DecidableEq, Repr

/-- An observing callback that looks its key up in the cache, reads `Len()` and
appends what it finds to a log. -/
def observeEvict {V : Type} : ObservingCallback (List (Observation V)) V :=
  fun view key val log =>
    log ++ [{ key := key, val := val,
              found := match view.SimpleGet key with
                | .ok (_, r) => some r
                | .error _ => none,
              len := view.Len }]

/-- The calls of an observing callback on a list of pairs of a view and an
entity, in the order of the list. -/
def callObservingAll {W V : Type} (cb : Option (ObservingCallback W V))
    (obs : List (SimpleLRU Unit V × entity V)) (w : W) : W :=
  obs.foldl (fun w o => callObserving cb o.1 o.2.key o.2.val w) w

/-! ## A callback that panics -/

/-- An `EvictCallback` that may panic: `none` is a panic of the callback. -/
abbrev PanickingCallback (W V : Type) := String → V → W → Option W

/-- The call of a callback that may panic and may be nil. -/
def callPanicking {W V : Type} (cb : Option (PanickingCallback W V)) (key : String)
    (val : V) (w : W) : Option W :=
  match cb with
  | none => some w
  | some f => f key val w

/-- How a call ends when the callback may panic. The methods change the cache in
place and recover nothing, so a panic of the callback leaves the cache as it
is at the call of the callback, and a caller that recovers the panic goes on
with that cache. -/
inductive Outcome (S W : Type) where
  /-- The call returns, with the cache and the world it leaves. -/
  | returned (s : S) (w : W)
  /-- The callback panics, with the cache and the world at its call. -/
  | panicked (s : S) (w : W)
  /-- The call fails by itself. -/
  | failed (f : Fault)

/-- The loop of the method `evict` for a callback `cb` that may panic, in the
place of the field `evictCallback`: the statements of the loop in the order
of `lru.go`; a panic of the callback ends the loop before `delete` and
`Remove`. -/
def SimpleLRU.evictLoopPanicking {W V : Type} (cb : Option (PanickingCallback W V)) :
    Nat → SimpleLRU W V → W → Outcome (SimpleLRU W V) W
  | fuel, l, w =>
    if l.Len > l.cap then
      match GoList.Back l.data with
      | none => .failed Fault.nilDereference
      | some ele =>
        match fuel with
        | 0 => .failed Fault.outOfFuel
        | fuel + 1 =>
          let e := ele.Value
          match callPanicking cb e.key e.val w with
          | none => .panicked l w
          | some w1 =>
            let l1 := { l with lookup := mapDelete l.lookup e.key }
            let l2 := { l1 with data := GoList.Remove l1.data ele.ptr }
            SimpleLRU.evictLoopPanicking cb fuel l2 w1
    else .returned l w

/-- The method `evict` for a callback that may panic. -/
def SimpleLRU.evictPanicking {W V : Type} (cb : Option (PanickingCallback W V))
    (l : SimpleLRU W V) (w : W) : Outcome (SimpleLRU W V) W :=
  SimpleLRU.evictLoopPanicking cb l.data.length l w

/-- The method `Set` for a callback that may panic. -/
def SimpleLRU.SetPanicking {W V : Type} (cb : Option (PanickingCallback W V))
    (l : SimpleLRU W V) (key : String) (val : V) (w : W) : Outcome (SimpleLRU W V) W :=
  match mapGet l.lookup key with
  | some ele =>
    match GoList.elementAt l.data ele with
    | none => .failed Fault.danglingElement
    | some _ =>
      let l1 := { l with data := GoList.assignVal l.data ele val }
      let l2 := { l1 with data := GoList.MoveToFront l1.data ele }
      let l3 := { l2 with lookup := mapSet l2.lookup key ele }
      SimpleLRU.evictPanicking cb l3 w
  | none =>
    let ele := l.freshPtr
    let l1 := { l with data := GoList.PushFront l.data ele ⟨key, val⟩ }
    let l2 := { l1 with lookup := mapSet l1.lookup key ele }
    SimpleLRU.evictPanicking cb l2 w

/-- The method `Set` of `LRU` for a callback that may panic: `l.mu.Unlock()` is a
plain statement after `l.simple.Set(key, val)`, not a deferred one, so a panic
of the callback leaves the lock held. -/
def LRU.SetPanicking {W V : Type} (cb : Option (PanickingCallback W V)) (l : LRU W V)
    (key : String) (val : V) (w : W) : Outcome (LRU W V) W :=
  match l.mu.Lock with
  | .error f => .failed f
  | .ok mu1 =>
    match l.simple.SetPanicking cb key val w with
    | .failed f => .failed f
    | .panicked s w1 => .panicked { mu := mu1, simple := s } w1
    | .returned s w1 =>
      match mu1.Unlock with
      | .error f => .failed f
      | .ok mu2 => .returned { mu := mu2, simple := s } w1

/-- A callback that panics whenever it is called. -/
def alwaysPanics {W V : Type} : PanickingCallback W V :=
  fun _ _ _ => none

/-- The outcome of a call that cannot panic. -/
def Outcome.ofExcept {S W : Type} : Except Fault (S × W) → Outcome S W
  | .ok (s, w) => .returned s w
  | .error f => .failed f

/-! ## Lemmas on the map -/

theorem mapGet_mem {m : List (String × Nat)} {key : String} {p : Nat}
    (h : mapGet m key = some p) : (key, p) ∈ m := by
  induction m with
  | nil => simp [mapGet] at h
  | cons b m ih =>
    obtain ⟨k, q⟩ := b
    by_cases hk : k = key
    · simp [mapGet, hk] at h
      simp [hk, h]
    · simp [mapGet, hk] at h
      exact List.mem_cons_of_mem _ (ih h)

theorem mapGet_eq_none {m : List (String × Nat)} {key : String} :
    mapGet m key = none ↔ key ∉ m.map Prod.fst := by
  induction m with
  | nil => simp [mapGet]
  | cons b m ih =>
    obtain ⟨k, q⟩ := b
    by_cases hk : k = key
    · simp [mapGet, hk]
    · have hk2 : ¬ key = k := fun h => hk h.symm
      simp only [mapGet, hk, if_false, ih, List.map_cons, List.mem_cons, hk2, false_or]

theorem mapGet_of_mem {m : List (String × Nat)} {key : String} {p : Nat}
    (hnd : (m.map Prod.fst).Nodup) (h : (key, p) ∈ m) : mapGet m key = some p := by
  induction m with
  | nil => simp at h
  | cons b m ih =>
    obtain ⟨k, q⟩ := b
    rw [List.map_cons, List.nodup_cons] at hnd
    rcases List.mem_cons.mp h with h1 | h1
    · cases h1
      simp [mapGet]
    · have hk : k ≠ key := by
        intro hk
        apply hnd.1
        have h2 := List.mem_map_of_mem Prod.fst h1
        simpa [hk] using h2
      simp only [mapGet, hk, if_false]
      exact ih hnd.2 h1

theorem mapSet_of_some {m : List (String × Nat)} {key : String} {p : Nat}
    (h : mapGet m key = some p) : mapSet m key p = m := by
  induction m with
  | nil => simp [mapGet] at h
  | cons b m ih =>
    obtain ⟨k, q⟩ := b
    by_cases hk : k = key
    · simp [mapGet, hk] at h
      simp [mapSet, hk, h]
    · simp [mapGet, hk] at h
      simp [mapSet, hk, ih h]

theorem mapSet_of_none {m : List (String × Nat)} {key : String} {p : Nat}
    (h : mapGet m key = none) : mapSet m key p = m ++ [(key, p)] := by
  induction m with
  | nil => simp [mapSet]
  | cons b m ih =>
    obtain ⟨k, q⟩ := b
    by_cases hk : k = key
    · simp [mapGet, hk] at h
    · simp [mapGet, hk] at h
      simp [mapSet, hk, ih h]

theorem mapGet_mapDelete_self (m : List (String × Nat)) (key : String) :
    mapGet (mapDelete m key) key = none := by
  rw [mapGet_eq_none]
  simp [mapDelete, List.mem_filter]

theorem mapDelete_of_none {m : List (String × Nat)} {key : String}
    (h : mapGet m key = none) : mapDelete m key = m := by
  rw [mapGet_eq_none] at h
  unfold mapDelete
  rw [List.filter_eq_self]
  intro b hb
  have : b.1 ≠ key := by
    intro hk
    exact h (hk ▸ List.mem_map_of_mem Prod.fst hb)
  simpa using this

/-! ## Lemmas on the list -/

namespace GoList

variable {V : Type}

theorem elementAt_some {data : List (Element V)} {p : Nat} {e : Element V}
    (h : elementAt data p = some e) : e ∈ data ∧ e.ptr = p := by
  unfold elementAt at h
  refine ⟨List.mem_of_find?_eq_some h, ?_⟩
  simpa using List.find?_some h

theorem elementAt_of_mem {data : List (Element V)} {e : Element V}
    (hnd : (data.map (fun x => x.ptr)).Nodup) (he : e ∈ data) :
    elementAt data e.ptr = some e := by
  induction data with
  | nil => simp at he
  | cons a data ih =>
    rw [List.map_cons, List.nodup_cons] at hnd
    rcases List.mem_cons.mp he with h1 | h1
    · subst h1
      simp [elementAt]
    · have hne : a.ptr ≠ e.ptr := by
        intro h
        apply hnd.1
        rw [h]
        exact List.mem_map_of_mem (fun x => x.ptr) h1
      have := ih hnd.2 h1
      unfold elementAt at this ⊢
      simp [List.find?_cons, hne, this]

theorem elementAt_eq_none {data : List (Element V)} {p : Nat}
    (h : p ∉ data.map (fun x => x.ptr)) : elementAt data p = none := by
  unfold elementAt
  rw [List.find?_eq_none]
  intro x hx hp
  apply h
  have : x.ptr = p := by simpa using hp
  rw [← this]
  exact List.mem_map_of_mem (fun x => x.ptr) hx

/-- Unlinking by address is unlinking by key, when addresses and keys are both
without repetition. -/
theorem Remove_eq_filter_key {data : List (Element V)} {e : Element V}
    (hp : (data.map (fun x => x.ptr)).Nodup)
    (hk : (data.map (fun x => x.Value.key)).Nodup) (he : e ∈ data) :
    Remove data e.ptr = data.filter (fun x => decide (x.Value.key ≠ e.Value.key)) := by
  unfold Remove
  apply List.filter_congr
  intro x hx
  have h1 : x.ptr = e.ptr → x = e := fun h => List.inj_on_of_nodup_map hp hx he h
  have h2 : x.Value.key = e.Value.key → x = e := fun h => List.inj_on_of_nodup_map hk hx he h
  by_cases hxe : x = e
  · subst hxe
    simp
  · have a1 : x.ptr ≠ e.ptr := fun h => hxe (h1 h)
    have a2 : x.Value.key ≠ e.Value.key := fun h => hxe (h2 h)
    simp [a1, a2]

theorem Remove_of_not_mem {data : List (Element V)} {p : Nat}
    (h : p ∉ data.map (fun x => x.ptr)) : Remove data p = data := by
  unfold Remove
  rw [List.filter_eq_self]
  intro x hx
  have : x.ptr ≠ p := by
    intro hp
    exact h (hp ▸ List.mem_map_of_mem (fun x => x.ptr) hx)
  simpa using this

theorem Remove_concat {init : List (Element V)} {e : Element V}
    (hp : ((init ++ [e]).map (fun x => x.ptr)).Nodup) :
    Remove (init ++ [e]) e.ptr = init := by
  have hnot : e.ptr ∉ init.map (fun x => x.ptr) := by
    rw [List.map_append, List.nodup_append] at hp
    intro h
    exact hp.2.2 h (by simp)
  unfold Remove
  rw [List.filter_append]
  have h1 := Remove_of_not_mem hnot
  unfold Remove at h1
  rw [h1]
  simp

theorem filter_ptr_assignVal (data : List (Element V)) (p : Nat) (val : V) :
    Remove (assignVal data p val) p = Remove data p := by
  unfold Remove assignVal
  induction data with
  | nil => rfl
  | cons a data ih =>
    by_cases h : a.ptr = p
    · simpa [List.filter_cons, h] using ih
    · simpa [List.filter_cons, h] using ih

theorem elementAt_assignVal {data : List (Element V)} {p : Nat} {e : Element V} (val : V)
    (h : elementAt data p = some e) :
    elementAt (assignVal data p val) p = some ⟨e.ptr, ⟨e.Value.key, val⟩⟩ := by
  unfold elementAt assignVal at *
  induction data with
  | nil => simp at h
  | cons a data ih =>
    by_cases hp : a.ptr = p
    · simp [List.find?_cons, hp] at h
      subst h
      simp [List.find?_cons, hp]
    · simp [List.find?_cons, hp] at h
      simp [List.find?_cons, hp, ih h]

end GoList

/-! ## The representation invariant -/

namespace WF

variable {W V : Type} {l : SimpleLRU W V}

theorem mapKeys (h : WF l) : (l.lookup.map Prod.fst).Nodup := by
  have hp := h.index.map Prod.fst
  rw [hp.nodup_iff, List.map_map]
  exact h.keys

theorem mem_lookup (h : WF l) {k : String} {p : Nat} :
    (k, p) ∈ l.lookup ↔ ∃ e ∈ l.data, e.Value.key = k ∧ e.ptr = p := by
  rw [h.index.mem_iff, List.mem_map]
  constructor
  · rintro ⟨e, he, heq⟩
    cases heq
    exact ⟨e, he, rfl, rfl⟩
  · rintro ⟨e, he, rfl, rfl⟩
    exact ⟨e, he, rfl⟩

theorem get_some (h : WF l) {k : String} {p : Nat} (hg : mapGet l.lookup k = some p) :
    ∃ e ∈ l.data, e.Value.key = k ∧ e.ptr = p ∧ GoList.elementAt l.data p = some e := by
  obtain ⟨e, he, hk, hp⟩ := h.mem_lookup.mp (mapGet_mem hg)
  exact ⟨e, he, hk, hp, hp ▸ GoList.elementAt_of_mem h.ptrs he⟩

theorem get_of_mem (h : WF l) {e : Element V} (he : e ∈ l.data) :
    mapGet l.lookup e.Value.key = some e.ptr :=
  mapGet_of_mem h.mapKeys (h.mem_lookup.mpr ⟨e, he, rfl, rfl⟩)

theorem get_none (h : WF l) {k : String} (hg : mapGet l.lookup k = none) :
    k ∉ keysOf l := by
  intro hk
  obtain ⟨e, he, rfl⟩ := List.mem_map.mp hk
  rw [h.get_of_mem he] at hg
  cases hg

theorem get_none_of_not_mem (h : WF l) {k : String} (hk : k ∉ keysOf l) :
    mapGet l.lookup k = none := by
  cases hg : mapGet l.lookup k with
  | none => rfl
  | some p =>
    obtain ⟨e, he, hek, _⟩ := h.get_some hg
    exact absurd (hek ▸ List.mem_map_of_mem (fun e => e.Value.key) he) hk

end WF

/-! ## The invariant under the changes that the methods make -/

theorem perm_cons_filter_key {V : Type} {data : List (Element V)} {e : Element V}
    (hk : (data.map (fun x => x.Value.key)).Nodup) (he : e ∈ data) :
    data.Perm (e :: data.filter (fun x => decide (x.Value.key ≠ e.Value.key))) := by
  induction data with
  | nil => simp at he
  | cons a t ih =>
    rw [List.map_cons, List.nodup_cons] at hk
    by_cases hae : a.Value.key = e.Value.key
    · have hea : e = a := by
        rcases List.mem_cons.mp he with h1 | h1
        · exact h1
        · exact absurd (hae ▸ List.mem_map_of_mem (fun x => x.Value.key) h1) hk.1
      subst hea
      have ht : t.filter (fun x => decide (x.Value.key ≠ e.Value.key)) = t := by
        rw [List.filter_eq_self]
        intro x hx
        have : x.Value.key ≠ e.Value.key := by
          intro hxe
          exact hk.1 (hxe ▸ List.mem_map_of_mem (fun x => x.Value.key) hx)
        simpa using this
      have hcons : (e :: t).filter (fun x => decide (x.Value.key ≠ e.Value.key)) = t := by
        rw [List.filter_cons]
        simpa using ht
      rw [hcons]
    · have het : e ∈ t := by
        rcases List.mem_cons.mp he with h1 | h1
        · exact absurd (h1 ▸ rfl) hae
        · exact h1
      have hcons : (a :: t).filter (fun x => decide (x.Value.key ≠ e.Value.key))
          = a :: t.filter (fun x => decide (x.Value.key ≠ e.Value.key)) := by
        rw [List.filter_cons]
        simp [hae]
      rw [hcons]
      exact ((ih hk.2 het).cons a).trans (List.Perm.swap e a _)

theorem le_foldr_max {xs : List Nat} {x : Nat} (h : x ∈ xs) : x ≤ xs.foldr max 0 := by
  induction xs with
  | nil => simp at h
  | cons a t ih =>
    rcases List.mem_cons.mp h with h1 | h1
    · subst h1
      simp
    · have := ih h1
      simp only [List.foldr_cons]
      omega

theorem freshPtr_not_mem {W V : Type} (l : SimpleLRU W V) :
    l.freshPtr ∉ l.data.map (fun e => e.ptr) := by
  intro h
  have := le_foldr_max (List.mem_append_left (l.lookup.map (fun b => b.2)) h)
  unfold SimpleLRU.freshPtr at this
  omega

namespace WF

variable {W V : Type} {l : SimpleLRU W V}

/-- The element of a key goes to the front with a new value. -/
theorem touch (h : WF l) {e : Element V} (he : e ∈ l.data) (val : V) :
    WF { l with data := ⟨e.ptr, ⟨e.Value.key, val⟩⟩ ::
      l.data.filter (fun x => decide (x.Value.key ≠ e.Value.key)) } := by
  have hperm := perm_cons_filter_key h.keys he
  refine ⟨?_, ?_, ?_, h.capNonneg⟩
  · have := (hperm.map (fun x => x.ptr)).nodup_iff.mp h.ptrs
    simpa using this
  · have := (hperm.map (fun x => x.Value.key)).nodup_iff.mp h.keys
    simpa using this
  · have := h.index.trans (hperm.map (fun x => (x.Value.key, x.ptr)))
    simpa using this

/-- A new element goes to the front and its key is bound to it. -/
theorem insert (h : WF l) {k : String} (hk : k ∉ keysOf l) {p : Nat}
    (hp : p ∉ l.data.map (fun e => e.ptr)) (val : V) :
    WF { l with data := ⟨p, ⟨k, val⟩⟩ :: l.data, lookup := l.lookup ++ [(k, p)] } := by
  refine ⟨?_, ?_, ?_, h.capNonneg⟩
  · simpa [List.nodup_cons] using And.intro (by simpa using hp) h.ptrs
  · simpa [List.nodup_cons] using And.intro (by simpa [keysOf] using hk) h.keys
  · have h1 : (l.lookup ++ [(k, p)]).Perm ((k, p) :: l.lookup) :=
      (List.perm_append_comm : (l.lookup ++ [(k, p)]).Perm ([(k, p)] ++ l.lookup))
    exact h1.trans (by simpa using h.index)

/-- The element of a key is unlinked and the key is unbound. -/
theorem delete (h : WF l) (k : String) :
    WF { l with data := l.data.filter (fun x => decide (x.Value.key ≠ k)),
                lookup := mapDelete l.lookup k } := by
  refine ⟨?_, ?_, ?_, h.capNonneg⟩
  · exact h.ptrs.sublist ((List.filter_sublist _).map _)
  · exact h.keys.sublist ((List.filter_sublist _).map _)
  · have := h.index.filter (fun b => decide (b.1 ≠ k))
    unfold mapDelete
    rw [List.filter_map] at this
    exact this

end WF

/-! ## What the methods do on a state that satisfies the invariant -/

theorem callEvictAll_cons {W V : Type} (cb : Option (EvictCallback W V)) (e : entity V)
    (es : List (entity V)) (w : W) :
    callEvictAll cb (e :: es) w = callEvictAll cb es (callEvict cb e.key e.val w) := rfl

theorem callEvictAll_append {W V : Type} (cb : Option (EvictCallback W V))
    (es fs : List (entity V)) (w : W) :
    callEvictAll cb (es ++ fs) w = callEvictAll cb fs (callEvictAll cb es w) := by
  simp [callEvictAll, List.foldl_append]

theorem callEvictAll_none {W V : Type} (es : List (entity V)) (w : W) :
    callEvictAll (none : Option (EvictCallback W V)) es w = w := by
  induction es generalizing w with
  | nil => rfl
  | cons e es ih => rw [callEvictAll_cons, ih]; rfl

theorem callEvictAll_record {V : Type} (es : List (entity V)) (log : List (String × V)) :
    callEvictAll (some recordEvict) es log = log ++ es.map (fun e => (e.key, e.val)) := by
  induction es generalizing log with
  | nil => simp [callEvictAll]
  | cons e es ih =>
    rw [callEvictAll_cons, ih]
    simp [callEvict, recordEvict]

/-- The loop of `evict` on a well-formed state, with fuel for the length of the
list: it returns, keeps the first `cap` elements and calls the callback on the
others, the back one first. -/
theorem evictLoop_spec {W V : Type} (fuel : Nat) (l : SimpleLRU W V) (w : W) (h : WF l)
    (hf : l.data.length ≤ fuel) :
    ∃ l1, SimpleLRU.evictLoop fuel l w
        = .ok (l1, callEvictAll l.evictCallback ((entries l).drop l.cap.toNat).reverse w)
      ∧ WF l1 ∧ l1.data = l.data.take l.cap.toNat
      ∧ l1.cap = l.cap ∧ l1.evictCallback = l.evictCallback := by
  induction fuel generalizing l w with
  | zero =>
    have hnil : l.data = [] := List.length_eq_zero.mp (Nat.le_zero.mp hf)
    have hcap := h.capNonneg
    unfold SimpleLRU.evictLoop
    have hlen : ¬ l.Len > l.cap := by
      simp [SimpleLRU.Len, GoList.Len, hnil]
      exact hcap
    rw [if_neg hlen]
    exact ⟨l, by simp [entries, hnil, callEvictAll], h, by simp [hnil], rfl, rfl⟩
  | succ n ih =>
    have hcap := h.capNonneg
    unfold SimpleLRU.evictLoop
    by_cases hlen : l.Len > l.cap
    · rw [if_pos hlen]
      have hlt : l.cap.toNat < l.data.length := by
        simp only [SimpleLRU.Len, GoList.Len] at hlen
        omega
      have hne : l.data ≠ [] := by
        intro h0
        rw [h0] at hlt
        simp at hlt
      obtain ⟨init, last, hdata⟩ : ∃ init last, l.data = init ++ [last] := by
        rcases List.eq_nil_or_concat l.data with h0 | ⟨init, last, h1⟩
        · exact absurd h0 hne
        · exact ⟨init, last, by simpa using h1⟩
      have hback : GoList.Back l.data = some last := by
        simp [GoList.Back, hdata]
      simp only [hback]
      have hmem : last ∈ l.data := by simp [hdata]
      have hrem : GoList.Remove l.data last.ptr = init := by
        have hp := h.ptrs
        rw [hdata] at hp ⊢
        exact GoList.Remove_concat hp
      have hwf := h.delete last.Value.key
      rw [← GoList.Remove_eq_filter_key h.ptrs h.keys hmem, hrem] at hwf
      have hlen1 : init.length ≤ n := by
        have : l.data.length = init.length + 1 := by simp [hdata]
        omega
      obtain ⟨l1, h1, h2, h3, h4, h5⟩ := ih _ (callEvict l.evictCallback last.Value.key
        last.Value.val w) (by simpa [hrem] using hwf) (by simpa [hrem] using hlen1)
      refine ⟨l1, ?_, h2, ?_, h4, h5⟩
      · rw [hrem, h1]
        have hc : l.cap.toNat ≤ init.length := by
          have : l.data.length = init.length + 1 := by simp [hdata]
          omega
        have hdrop : (entries l).drop l.cap.toNat
            = (init.map (fun e => e.Value)).drop l.cap.toNat ++ [last.Value] := by
          simp only [entries, hdata, List.map_append, List.map_cons, List.map_nil]
          rw [List.drop_append_of_le_length (by simpa using hc)]
        rw [hdrop, List.reverse_append]
        simp [entries, hrem, callEvictAll_cons]
      · rw [h3]
        have hc : l.cap.toNat ≤ init.length := by
          have : l.data.length = init.length + 1 := by simp [hdata]
          omega
        simp only [hdata]
        rw [List.take_append_of_le_length hc]
    · rw [if_neg hlen]
      have hle : l.data.length ≤ l.cap.toNat := by
        simp only [SimpleLRU.Len, GoList.Len] at hlen
        omega
      refine ⟨l, ?_, h, ?_, rfl, rfl⟩
      · have : (entries l).drop l.cap.toNat = [] := by
          apply List.drop_eq_nil_of_le
          simpa [entries] using hle
        simp [this, callEvictAll]
      · rw [List.take_of_length_le hle]

theorem evict_spec {W V : Type} (l : SimpleLRU W V) (w : W) (h : WF l) :
    ∃ l1, l.evict w
        = .ok (l1, callEvictAll l.evictCallback ((entries l).drop l.cap.toNat).reverse w)
      ∧ Inv l1 ∧ l1.data = l.data.take l.cap.toNat
      ∧ l1.cap = l.cap ∧ l1.evictCallback = l.evictCallback := by
  obtain ⟨l1, h1, h2, h3, h4, h5⟩ := evictLoop_spec l.data.length l w h le_rfl
  refine ⟨l1, h1, ⟨h2, ?_⟩, h3, h4, h5⟩
  have hc := h.capNonneg
  simp only [SimpleLRU.Len, GoList.Len, h3, h4, List.length_take]
  omega

theorem entries_filter {V : Type} (data : List (Element V)) (k : String) :
    (data.filter (fun x => decide (x.Value.key ≠ k))).map (fun e => e.Value)
      = (data.map (fun e => e.Value)).filter (fun e => decide (e.key ≠ k)) := by
  rw [List.filter_map]
  rfl

theorem filter_key_of_not_mem {V : Type} {data : List (Element V)} {k : String}
    (hk : k ∉ data.map (fun e => e.Value.key)) :
    data.filter (fun x => decide (x.Value.key ≠ k)) = data := by
  rw [List.filter_eq_self]
  intro x hx
  have : x.Value.key ≠ k := by
    intro hxk
    exact hk (hxk ▸ List.mem_map_of_mem (fun e => e.Value.key) hx)
  simpa using this

/-- The state of `Set` when it calls `evict`: the element of the key is at the
front with the new value, the other elements follow in their order. -/
theorem Set_eq_evict {W V : Type} (l : SimpleLRU W V) (key : String) (val : V) (w : W)
    (h : WF l) :
    ∃ l3, l.Set key val w = l3.evict w ∧ WF l3
      ∧ entries l3 = ⟨key, val⟩ :: (entries l).filter (fun e => decide (e.key ≠ key))
      ∧ l3.cap = l.cap ∧ l3.evictCallback = l.evictCallback := by
  cases hg : mapGet l.lookup key with
  | none =>
    have hk := h.get_none hg
    have hwf := h.insert hk (freshPtr_not_mem l) val
    refine ⟨_, ?_, hwf, ?_, rfl, rfl⟩
    · simp only [SimpleLRU.Set, hg, GoList.PushFront, mapSet_of_none hg]
    · have hf := filter_key_of_not_mem hk
      simp only [entries, List.map_cons, ← entries_filter, hf]
  | some p =>
    obtain ⟨e, he, hek, hep, hat⟩ := h.get_some hg
    have hwf := h.touch he val
    refine ⟨_, ?_, hwf, ?_, rfl, rfl⟩
    · simp only [SimpleLRU.Set, hg, hat, GoList.MoveToFront,
        GoList.elementAt_assignVal val hat, GoList.filter_ptr_assignVal, mapSet_of_some hg]
      rw [← hep, GoList.Remove_eq_filter_key h.ptrs h.keys he]
    · simp only [entries, List.map_cons, ← entries_filter, hek]

/-- The method `Set` on a well-formed state: it returns; the entity of the key
is at the front with the new value, followed by the other entities in their
order, cut to the capacity; the callback is called on the entities cut off,
the back one first. -/
theorem Set_spec {W V : Type} (l : SimpleLRU W V) (key : String) (val : V) (w : W)
    (h : WF l) :
    ∃ l1, l.Set key val w
        = .ok (l1, callEvictAll l.evictCallback
            (((⟨key, val⟩ : entity V) :: (entries l).filter
              (fun e => decide (e.key ≠ key))).drop l.cap.toNat).reverse w)
      ∧ Inv l1
      ∧ entries l1 = ((⟨key, val⟩ : entity V) :: (entries l).filter
          (fun e => decide (e.key ≠ key))).take l.cap.toNat
      ∧ l1.cap = l.cap ∧ l1.evictCallback = l.evictCallback := by
  obtain ⟨l3, h1, h2, h3, h4, h5⟩ := Set_eq_evict l key val w h
  obtain ⟨l1, e1, e2, e3, e4, e5⟩ := evict_spec l3 w h2
  refine ⟨l1, ?_, e2, ?_, e4.trans h4, e5.trans h5⟩
  · rw [h1, e1, h3, h4, h5]
  · rw [← h3, ← h4]
    simp only [entries, e3, List.map_take]

/-- The method `Get` on a key that the cache holds. -/
theorem Get_of_mem {W V : Type} (l : SimpleLRU W V) (h : WF l) {e : Element V}
    (he : e ∈ l.data) :
    l.Get e.Value.key
      = .ok ({ l with
                data := e :: l.data.filter (fun x => decide (x.Value.key ≠ e.Value.key)) },
             (some e.Value.val, true)) := by
  have hg := h.get_of_mem he
  have hat := GoList.elementAt_of_mem h.ptrs he
  simp only [SimpleLRU.Get, hg, hat, GoList.MoveToFront,
    GoList.Remove_eq_filter_key h.ptrs h.keys he]

/-- The method `Get` on a key that the cache does not hold. -/
theorem Get_of_not_mem {W V : Type} (l : SimpleLRU W V) (h : WF l) {key : String}
    (hk : key ∉ keysOf l) : l.Get key = .ok (l, (none, false)) := by
  simp only [SimpleLRU.Get, h.get_none_of_not_mem hk]

/-- The method `SimpleGet` on a key that the cache holds. -/
theorem SimpleGet_of_mem {W V : Type} (l : SimpleLRU W V) (h : WF l) {e : Element V}
    (he : e ∈ l.data) : l.SimpleGet e.Value.key = .ok (l, (some e.Value.val, true)) := by
  have hg := h.get_of_mem he
  have hat := GoList.elementAt_of_mem h.ptrs he
  simp only [SimpleLRU.SimpleGet, hg, hat]

/-- The method `SimpleGet` on a key that the cache does not hold. -/
theorem SimpleGet_of_not_mem {W V : Type} (l : SimpleLRU W V) (h : WF l) {key : String}
    (hk : key ∉ keysOf l) : l.SimpleGet key = .ok (l, (none, false)) := by
  simp only [SimpleLRU.SimpleGet, h.get_none_of_not_mem hk]

/-- The method `Remove` on a well-formed state. -/
theorem Remove_eq {W V : Type} (l : SimpleLRU W V) (h : WF l) (key : String) :
    l.Remove key = { l with data := l.data.filter (fun x => decide (x.Value.key ≠ key)),
                            lookup := mapDelete l.lookup key } := by
  cases hg : mapGet l.lookup key with
  | none =>
    have hk := h.get_none hg
    simp only [SimpleLRU.Remove, hg, mapDelete_of_none hg, filter_key_of_not_mem hk]
  | some p =>
    obtain ⟨e, he, hek, hep, _⟩ := h.get_some hg
    simp only [SimpleLRU.Remove, hg]
    rw [← hep, GoList.Remove_eq_filter_key h.ptrs h.keys he, hek]

theorem Inv_of_WF_of_length_le {W V : Type} {l l1 : SimpleLRU W V} (h : Inv l) (h1 : WF l1)
    (hc : l1.cap = l.cap) (hl : l1.data.length ≤ l.data.length) : Inv l1 := by
  refine ⟨h1, ?_⟩
  have := h.2
  simp only [SimpleLRU.Len, GoList.Len, hc] at this ⊢
  omega

theorem Inv_Get_of_mem {W V : Type} {l : SimpleLRU W V} (h : Inv l) {e : Element V}
    (he : e ∈ l.data) :
    Inv { l with data := e :: l.data.filter (fun x => decide (x.Value.key ≠ e.Value.key)) } := by
  apply Inv_of_WF_of_length_le h (h.1.touch he e.Value.val) rfl
  exact (perm_cons_filter_key h.1.keys he).length_eq.symm.le

theorem Inv_Remove {W V : Type} {l : SimpleLRU W V} (h : Inv l) (key : String) :
    Inv (l.Remove key) := by
  rw [Remove_eq l h.1]
  apply Inv_of_WF_of_length_le h (h.1.delete key) rfl
  exact List.length_filter_le _ _

theorem Inv_Clear {W V : Type} {l : SimpleLRU W V} (h : Inv l) : Inv l.Clear := by
  refine ⟨⟨by simp [SimpleLRU.Clear], by simp [SimpleLRU.Clear], by simp [SimpleLRU.Clear],
    h.1.capNonneg⟩, ?_⟩
  simpa [SimpleLRU.Clear, SimpleLRU.Len, GoList.Len] using h.1.capNonneg

theorem Inv_New {W V : Type} {cap : Int} (cb : Option (EvictCallback W V)) (hc : 0 ≤ cap) :
    ∃ l0, SimpleLRU.NewSimpleLRUWithEvict cap cb = .ok l0 ∧ Inv l0 ∧ l0.data = []
      ∧ l0.lookup = [] ∧ l0.cap = cap ∧ l0.evictCallback = cb := by
  refine ⟨{ cap := cap, evictCallback := cb, lookup := [], data := [] },
    by simp [SimpleLRU.NewSimpleLRUWithEvict, not_lt.mpr hc], ⟨⟨?_, ?_, ?_, hc⟩, ?_⟩,
    rfl, rfl, rfl, rfl⟩
  · simp
  · simp
  · simp
  · simpa [SimpleLRU.Len, GoList.Len] using hc

/-! ## Sequences of calls on a state that satisfies the invariant -/

/-- A call on a state that satisfies the invariant returns, in a state that
satisfies it, with the capacity and the callback it had. -/
theorem step_spec {W V : Type} (l : SimpleLRU W V) (w : W) (op : Op V) (h : Inv l) :
    ∃ l1 w1 r, step l w op = .ok (l1, w1, r) ∧ Inv l1 ∧ l1.cap = l.cap
      ∧ l1.evictCallback = l.evictCallback := by
  cases op with
  | Set key val =>
    obtain ⟨l1, h1, h2, _, h4, h5⟩ := Set_spec l key val w h.1
    exact ⟨l1, _, Ret.unit, by rw [step, h1], h2, h4, h5⟩
  | Get key =>
    by_cases hk : key ∈ keysOf l
    · obtain ⟨e, he, rfl⟩ := List.mem_map.mp hk
      exact ⟨_, w, _, by rw [step, Get_of_mem l h.1 he], Inv_Get_of_mem h he, rfl, rfl⟩
    · exact ⟨l, w, _, by rw [step, Get_of_not_mem l h.1 hk], h, rfl, rfl⟩
  | SimpleGet key =>
    by_cases hk : key ∈ keysOf l
    · obtain ⟨e, he, rfl⟩ := List.mem_map.mp hk
      exact ⟨l, w, _, by rw [step, SimpleGet_of_mem l h.1 he], h, rfl, rfl⟩
    · exact ⟨l, w, _, by rw [step, SimpleGet_of_not_mem l h.1 hk], h, rfl, rfl⟩
  | Remove key =>
    refine ⟨_, w, _, rfl, Inv_Remove h key, ?_, ?_⟩
    · rw [Remove_eq l h.1]
    · rw [Remove_eq l h.1]
  | Clear => exact ⟨_, w, _, rfl, Inv_Clear h, rfl, rfl⟩
  | Len => exact ⟨l, w, _, rfl, h, rfl, rfl⟩

/-- A sequence of calls on a state that satisfies the invariant returns, in a
state that satisfies it, with one result for each call. -/
theorem run_spec {W V : Type} (ops : List (Op V)) (l : SimpleLRU W V) (w : W) (h : Inv l) :
    ∃ l1 w1 rs, run l w ops = .ok (l1, w1, rs) ∧ Inv l1 ∧ l1.cap = l.cap
      ∧ l1.evictCallback = l.evictCallback ∧ rs.length = ops.length := by
  induction ops generalizing l w with
  | nil => exact ⟨l, w, [], rfl, h, rfl, rfl, rfl⟩
  | cons op ops ih =>
    obtain ⟨l1, w1, r, h1, h2, h3, h4⟩ := step_spec l w op h
    obtain ⟨l2, w2, rs, e1, e2, e3, e4, e5⟩ := ih l1 w1 h2
    refine ⟨l2, w2, r :: rs, ?_, e2, e3.trans h3, e4.trans h4, by simp [e5]⟩
    simp only [run, h1, e1]

theorem run_append {W V : Type} (ops1 ops2 : List (Op V)) (l : SimpleLRU W V) (w : W)
    {l1 : SimpleLRU W V} {w1 : W} {rs1 : List (Ret V)}
    (h1 : run l w ops1 = .ok (l1, w1, rs1)) :
    run l w (ops1 ++ ops2) =
      match run l1 w1 ops2 with
      | .error f => .error f
      | .ok (l2, w2, rs2) => .ok (l2, w2, rs1 ++ rs2) := by
  induction ops1 generalizing l w rs1 with
  | nil =>
    simp only [run, Except.ok.injEq, Prod.mk.injEq] at h1
    obtain ⟨e1, e2, e3⟩ := h1
    subst e1 e2 e3
    simp only [List.nil_append]
    rcases run l w ops2 with f | ⟨a, b, c⟩ <;> rfl
  | cons op ops ih =>
    simp only [run, List.cons_append] at h1 ⊢
    cases hs : step l w op with
    | error f => simp [hs] at h1
    | ok x =>
      obtain ⟨la, wa, r⟩ := x
      simp only [hs] at h1 ⊢
      cases hr : run la wa ops with
      | error f => simp [hr] at h1
      | ok y =>
        obtain ⟨lb, wb, rsb⟩ := y
        simp only [hr] at h1
        cases h1
        have hih := ih la wa hr
        simp only [List.append_eq] at hih ⊢
        rw [hih]
        rcases run l1 w1 ops2 with f | ⟨a, b, c⟩ <;> rfl

theorem New_ok {W V : Type} {cap : Int} {cb : Option (EvictCallback W V)}
    {l0 : SimpleLRU W V} (h : SimpleLRU.NewSimpleLRUWithEvict cap cb = .ok l0) :
    0 ≤ cap ∧ l0 = { cap := cap, evictCallback := cb, lookup := [], data := [] } := by
  unfold SimpleLRU.NewSimpleLRUWithEvict at h
  by_cases hc : cap < 0
  · simp [hc] at h
  · simp only [hc, if_false, Except.ok.injEq] at h
    exact ⟨not_lt.mp hc, h.symm⟩

theorem Inv_of_New {W V : Type} {cap : Int} {cb : Option (EvictCallback W V)}
    {l0 : SimpleLRU W V} (h : SimpleLRU.NewSimpleLRUWithEvict cap cb = .ok l0) : Inv l0 := by
  obtain ⟨hc, rfl⟩ := New_ok h
  obtain ⟨l0, h0, hinv, _⟩ := Inv_New cb hc
  rw [(New_ok h0).2] at hinv
  exact hinv

theorem Reachable.inv {W V : Type} {l : SimpleLRU W V} (h : Reachable l) : Inv l := by
  obtain ⟨cap, cb, l0, w0, ops, w, rs, h0, hr⟩ := h
  obtain ⟨l1, w1, rs1, e1, e2, _⟩ := run_spec ops l0 w0 (Inv_of_New h0)
  rw [hr] at e1
  cases e1
  exact e2

/-- Claim C1, amended: for every capacity `c ≥ 0`, every callback that returns and does
not call the cache (a function on the world of the caller, or nil) and every
sequence of calls of `Set`, `Get`, `SimpleGet`, `Remove`, `Clear` (and `Len`)
on the cache that `NewSimpleLRUWithEvict c cb` returns, every call returns and
after each of them `0 ≤ Len() ≤ c`: the bound holds after the first `n`
calls, for every `n`. -/
theorem len_le_cap_after_each_call {W V : Type} (c : Int) (hc : 0 ≤ c)
    (cb : Option (EvictCallback W V)) (w0 : W) (ops : List (Op V)) :
    ∃ l0, SimpleLRU.NewSimpleLRUWithEvict c cb = .ok l0 ∧
      ∀ n : Nat, ∃ l w rs, run l0 w0 (ops.take n) = .ok (l, w, rs) ∧ 0 ≤ l.Len ∧ l.Len ≤ c := by
  obtain ⟨l0, h0, hinv, _, _, hcap, _⟩ := Inv_New cb hc
  refine ⟨l0, h0, fun n => ?_⟩
  obtain ⟨l, w, rs, h1, h2, h3, _⟩ := run_spec (ops.take n) l0 w0 hinv
  refine ⟨l, w, rs, h1, ?_, ?_⟩
  · simp [SimpleLRU.Len, GoList.Len]
  · rw [← hcap, ← h3]
    exact h2.2

/-- Witness of claim C1, amended: capacity 2 and five calls, with the recording
callback. -/
theorem len_le_cap_after_each_call_witness :
    (0 : Int) ≤ 2 ∧
    ∃ l0, SimpleLRU.NewSimpleLRUWithEvict 2 (some recordEvict) = .ok l0 ∧
      ∀ n : Nat, ∃ l w rs,
        run l0 ([] : List (String × Nat))
          ([Op.Set "a" 1, Op.Set "b" 2, Op.Get "a", Op.Set "c" 3, Op.Remove "a"].take n)
          = .ok (l, w, rs) ∧ 0 ≤ l.Len ∧ l.Len ≤ 2 :=
  ⟨by decide, len_le_cap_after_each_call 2 (by decide) (some recordEvict) []
    [Op.Set "a" 1, Op.Set "b" 2, Op.Get "a", Op.Set "c" 3, Op.Remove "a"]⟩

/-! ## Sequences of `Set` on new keys -/

theorem take_append_take {α : Type} (c : Nat) (A B : List α) :
    (A ++ B.take c).take c = (A ++ B).take c := by
  rw [List.take_append_eq_append_take, List.take_append_eq_append_take, List.take_take]
  congr 2
  omega

theorem drop_append_take {α : Type} (c : Nat) (A B : List α) :
    (A ++ B).drop c = (A ++ B.take c).drop c ++ B.drop c := by
  rw [List.drop_append_eq_append_drop, List.drop_append_eq_append_drop, List.append_assoc]
  congr 1
  conv_lhs => rw [← List.take_append_drop c B]
  rw [List.drop_append_eq_append_drop]
  congr 1
  by_cases h : c ≤ B.length
  · have h0 : c - A.length - (List.take c B).length = 0 := by
      rw [List.length_take]
      omega
    rw [h0, List.drop_zero]
  · rw [List.drop_eq_nil_of_le (by omega : B.length ≤ c)]
    simp

theorem keysOf_eq {W V : Type} (l : SimpleLRU W V) :
    keysOf l = (entries l).map (fun e => e.key) := by
  simp [keysOf, entries]

theorem filter_entries_of_not_mem {W V : Type} {l : SimpleLRU W V} {k : String}
    (hk : k ∉ keysOf l) : (entries l).filter (fun e => decide (e.key ≠ k)) = entries l := by
  rw [List.filter_eq_self]
  intro e he
  have : e.key ≠ k := by
    intro hek
    apply hk
    rw [keysOf_eq, ← hek]
    exact List.mem_map_of_mem (fun e => e.key) he
  simpa using this

/-- The calls `Set(e.key, e.val)` for the entities of a list, in the order of the list. -/
theorem run_sets_new {W V : Type} (es : List (entity V)) (l : SimpleLRU W V) (w : W)
    (h : Inv l) (hnew : ∀ e ∈ es, e.key ∉ keysOf l)
    (hnd : (es.map (fun e => e.key)).Nodup) :
    ∃ l1 rs, run l w (es.map (fun e => Op.Set e.key e.val))
        = .ok (l1, callEvictAll l.evictCallback
            (((es.reverse ++ entries l).drop l.cap.toNat).reverse) w, rs)
      ∧ Inv l1 ∧ entries l1 = (es.reverse ++ entries l).take l.cap.toNat
      ∧ l1.cap = l.cap ∧ l1.evictCallback = l.evictCallback := by
  induction es generalizing l w with
  | nil =>
    have hle : (entries l).length ≤ l.cap.toNat := by
      have := h.2
      have hc := h.1.capNonneg
      simp only [SimpleLRU.Len, GoList.Len] at this
      simp only [entries, List.length_map]
      omega
    refine ⟨l, [], ?_, h, ?_, rfl, rfl⟩
    · simp [run, List.drop_eq_nil_of_le hle, callEvictAll]
    · simp [List.take_of_length_le hle]
  | cons e es ih =>
    rw [List.map_cons, List.nodup_cons] at hnd
    have hke : e.key ∉ keysOf l := hnew e (List.mem_cons_self _ _)
    obtain ⟨l1, h1, h2, h3, h4, h5⟩ := Set_spec l e.key e.val w h.1
    rw [filter_entries_of_not_mem hke] at h1 h3
    have hnew1 : ∀ x ∈ es, x.key ∉ keysOf l1 := by
      intro x hx hmem
      rw [keysOf_eq, h3] at hmem
      obtain ⟨y, hy, hyx⟩ := List.mem_map.mp hmem
      rcases List.mem_cons.mp (List.mem_of_mem_take hy) with h0 | h0
      · apply hnd.1
        rw [h0] at hyx
        rw [← show x.key = e.key from hyx.symm]
        exact List.mem_map_of_mem (fun e => e.key) hx
      · apply hnew x (List.mem_cons_of_mem _ hx)
        rw [keysOf_eq, ← hyx]
        exact List.mem_map_of_mem (fun e => e.key) h0
    obtain ⟨l2, rs, e1, e2, e3, e4, e5⟩ := ih l1 (callEvictAll l.evictCallback
      (List.drop l.cap.toNat (e :: entries l)).reverse w) h2 hnew1 hnd.2
    refine ⟨l2, Ret.unit :: rs, ?_, e2, ?_, e4.trans h4, e5.trans h5⟩
    · have h1a : l.Set e.key e.val w = Except.ok (l1, callEvictAll l.evictCallback
          (List.drop l.cap.toNat (e :: entries l)).reverse w) := h1
      have h3a : entries l1 = List.take l.cap.toNat (e :: entries l) := h3
      simp only [List.map_cons, run, step, h1a, e1, h3a, h4, h5]
      rw [← callEvictAll_append, ← List.reverse_append]
      congr 4
      rw [List.reverse_cons, List.append_assoc]
      exact congrArg List.reverse (drop_append_take _ _ _).symm
    · rw [e3, h3, h4, take_append_take, List.reverse_cons, List.append_assoc]
      rfl

theorem lookup_keys_perm {W V : Type} {l : SimpleLRU W V} (h : WF l) :
    (l.lookup.map Prod.fst).Perm (keysOf l) := by
  have hp := h.index.map Prod.fst
  rw [List.map_map] at hp
  exact hp

/-- Claim C2: for every capacity `c`, every `k` and every list of `c + k` entities with
pairwise distinct keys, the calls `Set(e.key, e.val)` in the order of the list on
the cache that `NewSimpleLRUWithEvict c cb` returns all return; the world is
then the result of the callback called on the first `k` entities of the list,
in the order of the list, and on nothing else (with the recording callback the
log is the list of the first `k` pairs); the recency order holds the last `c`
entities, the last inserted at the front, and the index binds their keys. -/
theorem sets_evict_first_k {W V : Type} (c k : Nat) (es : List (entity V))
    (hlen : es.length = c + k) (hnd : (es.map (fun e => e.key)).Nodup)
    (cb : Option (EvictCallback W V)) (w0 : W) :
    (∃ l0 l rs, SimpleLRU.NewSimpleLRUWithEvict (c : Int) cb = .ok l0
      ∧ run l0 w0 (es.map (fun e => Op.Set e.key e.val))
          = .ok (l, callEvictAll cb (es.take k) w0, rs)
      ∧ entries l = (es.drop k).reverse
      ∧ (l.lookup.map Prod.fst).Perm ((es.drop k).map (fun e => e.key))
      ∧ l.Len = c)
    ∧ (∃ l0 l rs, SimpleLRU.NewSimpleLRUWithEvict (c : Int) (some recordEvict) = .ok l0
      ∧ run l0 [] (es.map (fun e => Op.Set e.key e.val))
          = .ok (l, (es.take k).map (fun e => (e.key, e.val)), rs)) := by
  have key : ∀ (W1 : Type) (cb1 : Option (EvictCallback W1 V)) (w1 : W1),
      ∃ l0 l rs, SimpleLRU.NewSimpleLRUWithEvict (c : Int) cb1 = .ok l0
        ∧ run l0 w1 (es.map (fun e => Op.Set e.key e.val))
            = .ok (l, callEvictAll cb1 (es.take k) w1, rs)
        ∧ entries l = (es.drop k).reverse
        ∧ (l.lookup.map Prod.fst).Perm ((es.drop k).map (fun e => e.key))
        ∧ l.Len = c := by
    intro W1 cb1 w1
    obtain ⟨l0, h0, hinv, hdata, _, hcap, hcb⟩ := Inv_New cb1 (Int.natCast_nonneg c)
    have hent : entries l0 = [] := by simp [entries, hdata]
    obtain ⟨l, rs, h1, h2, h3, h4, _⟩ := run_sets_new es l0 w1 hinv
      (by intro e _; simp [keysOf, hdata]) hnd
    have hk : es.length - c = k := by omega
    rw [hent, hcap, hcb, List.append_nil, Int.toNat_natCast] at h1
    rw [hent, hcap, List.append_nil, Int.toNat_natCast, List.take_reverse, hk] at h3
    rw [List.drop_reverse, List.reverse_reverse, hk] at h1
    refine ⟨l0, l, rs, h0, h1, h3, ?_, ?_⟩
    · refine (lookup_keys_perm h2.1).trans ?_
      rw [keysOf_eq, h3, List.map_reverse]
      exact List.reverse_perm _
    · have : (entries l).length = c := by
        rw [h3, List.length_reverse, List.length_drop]
        omega
      simp only [entries, List.length_map] at this
      simp [SimpleLRU.Len, GoList.Len, this]
  refine ⟨key W cb w0, ?_⟩
  obtain ⟨l0, l, rs, h0, h1, _⟩ := key (List (String × V)) (some recordEvict) []
  rw [callEvictAll_record, List.nil_append] at h1
  exact ⟨l0, l, rs, h0, h1⟩

/-- Witness of claim C2: capacity 2 and three keys. -/
theorem sets_evict_first_k_witness :
    ([⟨"a", 1⟩, ⟨"b", 2⟩, ⟨"c", 3⟩] : List (entity Nat)).length = 2 + 1
    ∧ (([⟨"a", 1⟩, ⟨"b", 2⟩, ⟨"c", 3⟩] : List (entity Nat)).map (fun e => e.key)).Nodup
    ∧ ∃ l0 l rs, SimpleLRU.NewSimpleLRUWithEvict ((2 : Nat) : Int) (some recordEvict) = .ok l0
      ∧ run l0 [] (([⟨"a", 1⟩, ⟨"b", 2⟩, ⟨"c", 3⟩] : List (entity Nat)).map
          (fun e => Op.Set e.key e.val))
          = .ok (l, (([⟨"a", 1⟩, ⟨"b", 2⟩, ⟨"c", 3⟩] : List (entity Nat)).take 1).map
              (fun e => (e.key, e.val)), rs) :=
  ⟨by decide, by decide,
    (sets_evict_first_k (W := Unit) 2 1 [⟨"a", 1⟩, ⟨"b", 2⟩, ⟨"c", 3⟩] (by decide) (by decide)
      none ()).2⟩

/-! ## The calls in terms of the recency order -/

theorem find_key_of_mem {V : Type} {es : List (entity V)} {e : entity V}
    (hnd : (es.map (fun x => x.key)).Nodup) (he : e ∈ es) :
    es.find? (fun x => decide (x.key = e.key)) = some e := by
  induction es with
  | nil => simp at he
  | cons a es ih =>
    rw [List.map_cons, List.nodup_cons] at hnd
    rcases List.mem_cons.mp he with h1 | h1
    · subst h1
      simp
    · have hne : a.key ≠ e.key := by
        intro h
        apply hnd.1
        rw [h]
        exact List.mem_map_of_mem (fun x => x.key) h1
      simp [List.find?_cons, hne, ih hnd.2 h1]

theorem find_key_eq_none {V : Type} {es : List (entity V)} {k : String}
    (hk : k ∉ es.map (fun x => x.key)) :
    es.find? (fun x => decide (x.key = k)) = none := by
  rw [List.find?_eq_none]
  intro x hx hxk
  apply hk
  have : x.key = k := by simpa using hxk
  rw [← this]
  exact List.mem_map_of_mem (fun x => x.key) hx

theorem entries_keys_nodup {W V : Type} {l : SimpleLRU W V} (h : WF l) :
    ((entries l).map (fun e => e.key)).Nodup := by
  rw [← keysOf_eq]
  exact h.keys

/-- A call on a state that satisfies the invariant, in terms of the recency
order that it finds. -/
theorem step_refines {W V : Type} (l : SimpleLRU W V) (w : W) (op : Op V) (h : Inv l) :
    ∃ l1, step l w op
        = .ok (l1, callEvictAll l.evictCallback (evictedBy l.cap.toNat (entries l) op) w,
            resultOf (entries l) op)
      ∧ Inv l1 ∧ entries l1 = nextEntries l.cap.toNat (entries l) op
      ∧ l1.cap = l.cap ∧ l1.evictCallback = l.evictCallback := by
  cases op with
  | Set key val =>
    obtain ⟨l1, h1, h2, h3, h4, h5⟩ := Set_spec l key val w h.1
    exact ⟨l1, by rw [step, h1]; rfl, h2, h3, h4, h5⟩
  | Get key =>
    by_cases hk : key ∈ keysOf l
    · obtain ⟨e, he, rfl⟩ := List.mem_map.mp hk
      have hf := find_key_of_mem (entries_keys_nodup h.1)
        (List.mem_map_of_mem (fun e => e.Value) he)
      refine ⟨_, ?_, Inv_Get_of_mem h he, ?_, rfl, rfl⟩
      · rw [step, Get_of_mem l h.1 he]
        simp only [evictedBy, callEvictAll, List.foldl_nil, resultOf, lookupResult, hf]
      · simp only [nextEntries, hf]
        simp only [entries, List.map_cons, ← entries_filter]
    · have hf : (entries l).find? (fun x => decide (x.key = key)) = none :=
        find_key_eq_none (by rw [← keysOf_eq]; exact hk)
      refine ⟨l, ?_, h, ?_, rfl, rfl⟩
      · rw [step, Get_of_not_mem l h.1 hk]
        simp only [evictedBy, callEvictAll, List.foldl_nil, resultOf, lookupResult, hf]
      · simp only [nextEntries, hf]
  | SimpleGet key =>
    by_cases hk : key ∈ keysOf l
    · obtain ⟨e, he, rfl⟩ := List.mem_map.mp hk
      have hf := find_key_of_mem (entries_keys_nodup h.1)
        (List.mem_map_of_mem (fun e => e.Value) he)
      refine ⟨l, ?_, h, rfl, rfl, rfl⟩
      rw [step, SimpleGet_of_mem l h.1 he]
      simp only [evictedBy, callEvictAll, List.foldl_nil, resultOf, lookupResult, hf]
    · have hf : (entries l).find? (fun x => decide (x.key = key)) = none :=
        find_key_eq_none (by rw [← keysOf_eq]; exact hk)
      refine ⟨l, ?_, h, rfl, rfl, rfl⟩
      rw [step, SimpleGet_of_not_mem l h.1 hk]
      simp only [evictedBy, callEvictAll, List.foldl_nil, resultOf, lookupResult, hf]
  | Remove key =>
    refine ⟨_, rfl, Inv_Remove h key, ?_, ?_, ?_⟩
    · rw [Remove_eq l h.1]
      simp only [nextEntries, entries, ← entries_filter]
    · rw [Remove_eq l h.1]
    · rw [Remove_eq l h.1]
  | Clear => exact ⟨_, rfl, Inv_Clear h, rfl, rfl, rfl⟩
  | Len =>
    refine ⟨l, ?_, h, rfl, rfl, rfl⟩
    simp [step, evictedBy, callEvictAll, resultOf, SimpleLRU.Len, GoList.Len, entries]

/-- A sequence of calls on a state that satisfies the invariant, in terms of
the recency order that it finds. -/
theorem run_refines {W V : Type} (ops : List (Op V)) (l : SimpleLRU W V) (w : W)
    (h : Inv l) :
    ∃ l1, run l w ops
        = .ok (l1, callEvictAll l.evictCallback (evictedByAll l.cap.toNat (entries l) ops) w,
            resultsOf l.cap.toNat (entries l) ops)
      ∧ Inv l1 ∧ entries l1 = nextEntriesAll l.cap.toNat (entries l) ops
      ∧ l1.cap = l.cap ∧ l1.evictCallback = l.evictCallback := by
  induction ops generalizing l w with
  | nil => exact ⟨l, rfl, h, rfl, rfl, rfl⟩
  | cons op ops ih =>
    obtain ⟨l1, h1, h2, h3, h4, h5⟩ := step_refines l w op h
    obtain ⟨l2, e1, e2, e3, e4, e5⟩ := ih l1
      (callEvictAll l.evictCallback (evictedBy l.cap.toNat (entries l) op) w) h2
    refine ⟨l2, ?_, e2, ?_, e4.trans h4, e5.trans h5⟩
    · simp only [run, h1, e1, h3, h4, h5, evictedByAll, resultsOf, callEvictAll_append]
    · rw [e3, h3, h4]
      rfl

/-! ## The value that a key holds -/

theorem mem_nextEntries {V : Type} {c : Nat} {es : List (entity V)} {op : Op V}
    {e : entity V} (he : e ∈ nextEntries c es op) :
    (op = Op.Set e.key e.val) ∨ (e ∈ es ∧ ∀ v, op ≠ Op.Set e.key v) := by
  cases op with
  | Set key val =>
    simp only [nextEntries] at he
    rcases List.mem_cons.mp (List.mem_of_mem_take he) with h1 | h1
    · left
      rw [h1]
    · right
      rw [List.mem_filter] at h1
      refine ⟨h1.1, ?_⟩
      intro v hv
      have hk : e.key ≠ key := by simpa using h1.2
      cases hv
      exact hk rfl
  | Get key =>
    right
    simp only [nextEntries] at he
    refine ⟨?_, by intro v hv; cases hv⟩
    cases hf : es.find? (fun e => decide (e.key = key)) with
    | none => simpa [hf] using he
    | some a =>
      rw [hf] at he
      rcases List.mem_cons.mp he with h1 | h1
      · rw [h1]
        exact List.mem_of_find?_eq_some hf
      · exact (List.mem_filter.mp h1).1
  | SimpleGet key => exact Or.inr ⟨he, by intro v hv; cases hv⟩
  | Remove key =>
    exact Or.inr ⟨(List.mem_filter.mp he).1, by intro v hv; cases hv⟩
  | Clear => simp [nextEntries] at he
  | Len => exact Or.inr ⟨he, by intro v hv; cases hv⟩

theorem lastSet_cons_or {V : Type} (op : Op V) (ops : List (Op V)) (key : String)
    (g : Option V) :
    (lastSet (op :: ops) key).or g = (lastSet ops key).or ((lastSet [op] key).or g) := by
  cases h : lastSet ops key with
  | some v => simp [lastSet, h]
  | none => simp [lastSet, h]

/-- Every entity that a sequence of calls leaves holds the value of the last
`Set` of its key in the sequence, or the value it started with when the
sequence has no `Set` of its key. -/
theorem lastSet_of_mem {V : Type} (c : Nat) (ops : List (Op V)) (es : List (entity V))
    (g : String → Option V) (hg : ∀ e ∈ es, g e.key = some e.val) :
    ∀ e ∈ nextEntriesAll c es ops, (lastSet ops e.key).or (g e.key) = some e.val := by
  induction ops generalizing es g with
  | nil =>
    intro e he
    simpa [lastSet] using hg e he
  | cons op ops ih =>
    intro e he
    rw [lastSet_cons_or]
    refine ih (nextEntries c es op) (fun k => (lastSet [op] k).or (g k)) ?_ e he
    intro x hx
    rcases mem_nextEntries hx with h1 | ⟨h1, h2⟩
    · rw [h1]
      simp [lastSet]
    · have : lastSet [op] x.key = none := by
        cases op with
        | Set key val =>
          have hne : key ≠ x.key := by
            intro hk
            exact h2 val (by rw [hk])
          simp [lastSet, hne]
        | Get key => rfl
        | SimpleGet key => rfl
        | Remove key => rfl
        | Clear => rfl
        | Len => rfl
      show (lastSet [op] x.key).or (g x.key) = some x.val
      rw [this]
      simpa using hg x h1

/-- Claim C3: in a state that a sequence of calls `ops` produces from a constructed
cache, for every key `k`: the index binds `k` exactly when the recency order
holds it; if it does, `Get(k)` returns `(v, true)` for the value `v` of the last
`Set` of `k` in `ops`, the recency order becomes the old one with the entity of
`k` moved to the front, and the index, the entities as a collection, the
capacity and the callback are unchanged; if it does not, `Get(k)` returns
`(nil, false)` and the state is unchanged. -/
theorem get_moves_to_front {W V : Type} (c : Int) (cb : Option (EvictCallback W V))
    (l0 : SimpleLRU W V) (w0 : W) (ops : List (Op V)) (l : SimpleLRU W V) (w : W)
    (rs : List (Ret V)) (h0 : SimpleLRU.NewSimpleLRUWithEvict c cb = .ok l0)
    (hr : run l0 w0 ops = .ok (l, w, rs)) (k : String) :
    (k ∈ l.lookup.map Prod.fst ↔ k ∈ keysOf l)
    ∧ (k ∈ keysOf l → ∃ v, lastSet ops k = some v ∧ (⟨k, v⟩ : entity V) ∈ entries l
        ∧ ∃ l1, l.Get k = .ok (l1, (some v, true))
          ∧ entries l1 = ⟨k, v⟩ :: (entries l).filter (fun e => decide (e.key ≠ k))
          ∧ (entries l1).Perm (entries l)
          ∧ l1.lookup = l.lookup ∧ l1.cap = l.cap ∧ l1.evictCallback = l.evictCallback)
    ∧ (k ∉ keysOf l → l.Get k = .ok (l, (none, false))) := by
  have hinv0 := Inv_of_New h0
  obtain ⟨l1, e1, e2, e3, _, _⟩ := run_refines ops l0 w0 hinv0
  rw [hr] at e1
  simp only [Except.ok.injEq, Prod.mk.injEq] at e1
  obtain ⟨rfl, _, _⟩ := e1
  have hwf := e2.1
  refine ⟨(lookup_keys_perm hwf).mem_iff, ?_, fun hk => Get_of_not_mem l hwf hk⟩
  intro hk
  obtain ⟨e, he, rfl⟩ := List.mem_map.mp hk
  have hmem : e.Value ∈ entries l := List.mem_map_of_mem (fun e => e.Value) he
  have hlast : lastSet ops e.Value.key = some e.Value.val := by
    have hdata0 : entries l0 = [] := by
      rw [(New_ok h0).2]
      rfl
    have := lastSet_of_mem l0.cap.toNat ops (entries l0) (fun _ => none)
      (by rw [hdata0]; intro x hx; simp at hx) e.Value (e3 ▸ hmem)
    simpa using this
  refine ⟨e.Value.val, hlast, hmem, _, Get_of_mem l hwf he, ?_, ?_, rfl, rfl, rfl⟩
  · simp only [entries, List.map_cons, ← entries_filter]
  · have := (perm_cons_filter_key hwf.keys he).map (fun e => e.Value)
    exact this.symm

/-- Witness of claim C3: the key `"a"` after `Set("a", 1)`, `Set("b", 2)`, `Set("a", 3)`. -/
theorem get_moves_to_front_witness :
    SimpleLRU.NewSimpleLRUWithEvict 2 none = .ok (⟨2, none, [], []⟩ : SimpleLRU Unit Nat)
    ∧ run (⟨2, none, [], []⟩ : SimpleLRU Unit Nat) ()
        [Op.Set "a" 1, Op.Set "b" 2, Op.Set "a" 3]
      = .ok (⟨2, none, [("a", 1), ("b", 2)], [⟨1, ⟨"a", 3⟩⟩, ⟨2, ⟨"b", 2⟩⟩]⟩, (),
          [Ret.unit, Ret.unit, Ret.unit])
    ∧ ∃ v, lastSet [Op.Set "a" 1, Op.Set "b" 2, Op.Set "a" 3] "a" = some v
        ∧ ∃ l1, (⟨2, none, [("a", 1), ("b", 2)],
            [⟨1, ⟨"a", 3⟩⟩, ⟨2, ⟨"b", 2⟩⟩]⟩ : SimpleLRU Unit Nat).Get "a"
              = .ok (l1, (some v, true)) :=
  ⟨rfl, rfl,
    let ⟨v, h1, _, l1, h3, _⟩ := (get_moves_to_front (W := Unit) (V := Nat) 2 none
      ⟨2, none, [], []⟩ () [Op.Set "a" 1, Op.Set "b" 2, Op.Set "a" 3]
      ⟨2, none, [("a", 1), ("b", 2)], [⟨1, ⟨"a", 3⟩⟩, ⟨2, ⟨"b", 2⟩⟩]⟩ ()
      [Ret.unit, Ret.unit, Ret.unit] rfl rfl "a").2.1 (by decide)
    ⟨v, h1, l1, h3⟩⟩

/-! ## Single calls -/

theorem toNat_cap {W V : Type} {l : SimpleLRU W V} (h : WF l) : (l.cap.toNat : Int) = l.cap :=
  Int.toNat_of_nonneg h.capNonneg

/-- Claim C4: in a reachable state of capacity `c` with recency order `L`, for a key `k`
that the index does not bind, `Set(k, v)` returns; the recency order is then
the first `c` entities of `(k, v) :: L`, the index binds exactly the keys of
these entities, and the callback has been called on the entities beyond the
first `c`, the back one first, and on nothing else. -/
theorem set_new_key {W V : Type} (l : SimpleLRU W V) (h : Reachable l) (k : String) (v : V)
    (w : W) (hk : mapGet l.lookup k = none) :
    ∃ l1, l.Set k v w
        = .ok (l1, callEvictAll l.evictCallback
            (((⟨k, v⟩ : entity V) :: entries l).drop l.cap.toNat).reverse w)
      ∧ entries l1 = ((⟨k, v⟩ : entity V) :: entries l).take l.cap.toNat
      ∧ (l1.lookup.map Prod.fst).Perm ((entries l1).map (fun e => e.key))
      ∧ (l.cap.toNat : Int) = l.cap
      ∧ l1.cap = l.cap ∧ l1.evictCallback = l.evictCallback := by
  have hwf := h.inv.1
  have hnot := hwf.get_none hk
  obtain ⟨l1, h1, h2, h3, h4, h5⟩ := Set_spec l k v w hwf
  rw [filter_entries_of_not_mem hnot] at h1 h3
  refine ⟨l1, h1, h3, ?_, toNat_cap hwf, h4, h5⟩
  rw [← keysOf_eq]
  exact lookup_keys_perm h2.1

/-- Witness of claim C4: a full cache of capacity 2 and the new key `"c"`. -/
theorem set_new_key_witness :
    Reachable (⟨2, some recordEvict, [("a", 1), ("b", 2)],
      [⟨2, ⟨"b", 2⟩⟩, ⟨1, ⟨"a", 1⟩⟩]⟩ : SimpleLRU (List (String × Nat)) Nat)
    ∧ mapGet [("a", 1), ("b", 2)] "c" = none
    ∧ ∃ l1, (⟨2, some recordEvict, [("a", 1), ("b", 2)],
        [⟨2, ⟨"b", 2⟩⟩, ⟨1, ⟨"a", 1⟩⟩]⟩ : SimpleLRU (List (String × Nat)) Nat).Set "c" 3 []
          = .ok (l1, [("a", 1)])
        ∧ entries l1 = [⟨"c", 3⟩, ⟨"b", 2⟩] :=
  have hreach : Reachable (⟨2, some recordEvict, [("a", 1), ("b", 2)],
      [⟨2, ⟨"b", 2⟩⟩, ⟨1, ⟨"a", 1⟩⟩]⟩ : SimpleLRU (List (String × Nat)) Nat) :=
    ⟨2, some recordEvict, ⟨2, some recordEvict, [], []⟩, [],
      [Op.Set "a" 1, Op.Set "b" 2], [], [Ret.unit, Ret.unit], rfl, rfl⟩
  ⟨hreach, rfl,
    let ⟨l1, h1, h2, _⟩ := set_new_key _ hreach "c" 3 [] rfl
    ⟨l1, h1, h2⟩⟩

/-- Claim C5: in a reachable state of capacity at least 1, `Set(k, v1)` returns and leaves
the entity `(k, v1)` at the front; the call `Set(k, v2)` that follows returns,
leaves `Len()` as it is, calls the callback on nothing, leaves the entity
`(k, v2)` at the front of the same other entities, and the `Get(k)` that
follows returns `(v2, true)`. -/
theorem set_existing_key {W V : Type} (l : SimpleLRU W V) (h : Reachable l) (hc : 1 ≤ l.cap)
    (k : String) (v1 v2 : V) (w : W) :
    ∃ l1 w1 l2 l3 rest, l.Set k v1 w = .ok (l1, w1)
      ∧ entries l1 = ⟨k, v1⟩ :: rest
      ∧ l1.Set k v2 w1 = .ok (l2, callEvictAll l1.evictCallback [] w1)
      ∧ l2.Len = l1.Len
      ∧ entries l2 = ⟨k, v2⟩ :: rest
      ∧ l2.Get k = .ok (l3, (some v2, true)) := by
  have hwf := h.inv.1
  obtain ⟨l1, h1, h2, h3, h4, h5⟩ := Set_spec l k v1 w hwf
  obtain ⟨c, hcc⟩ : ∃ c, l.cap.toNat = c + 1 := ⟨l.cap.toNat - 1, by omega⟩
  rw [hcc, List.take_succ_cons] at h3
  have hfilter : (entries l1).filter (fun e => decide (e.key ≠ k))
      = List.take c ((entries l).filter (fun e => decide (e.key ≠ k))) := by
    rw [h3, List.filter_cons]
    simp only [ne_eq, not_true_eq_false, decide_False, Bool.false_eq_true, if_false]
    rw [List.filter_eq_self]
    intro x hx
    exact (List.mem_filter.mp (List.mem_of_mem_take hx)).2
  have hlen : (entries l1).length ≤ l1.cap.toNat := by
    have := h2.2
    have hc1 := h2.1.capNonneg
    simp only [SimpleLRU.Len, GoList.Len] at this
    simp only [entries, List.length_map]
    omega
  obtain ⟨l2, e1, e2, e3, e4, e5⟩ := Set_spec l1 k v2 _ h2.1
  have hlen2 : (((⟨k, v2⟩ : entity V) :: (entries l1).filter
      (fun e => decide (e.key ≠ k)))).length ≤ l1.cap.toNat := by
    rw [hfilter]
    rw [h3] at hlen
    simpa using hlen
  rw [List.drop_eq_nil_of_le hlen2] at e1
  rw [List.take_of_length_le hlen2, hfilter] at e3
  have hget : (⟨k, v2⟩ : entity V) ∈ entries l2 := by simp [e3]
  obtain ⟨x, hx, hxe⟩ := List.mem_map.mp hget
  have hg := Get_of_mem l2 e2.1 hx
  rw [hxe] at hg
  refine ⟨l1, _, l2, _, _, h1, h3, e1, ?_, e3, hg⟩
  have hl : (entries l2).length = (entries l1).length := by
    rw [e3, h3]
    simp
  simp only [entries, List.length_map] at hl
  simp [SimpleLRU.Len, GoList.Len, hl]

/-- Witness of claim C5: the key `"a"` set twice in a full cache of capacity 2. -/
theorem set_existing_key_witness :
    Reachable (⟨2, some recordEvict, [("a", 1), ("b", 2)],
      [⟨2, ⟨"b", 2⟩⟩, ⟨1, ⟨"a", 1⟩⟩]⟩ : SimpleLRU (List (String × Nat)) Nat)
    ∧ (1 : Int) ≤ 2
    ∧ ∃ l1 w1 l2 l3 rest, (⟨2, some recordEvict, [("a", 1), ("b", 2)],
        [⟨2, ⟨"b", 2⟩⟩, ⟨1, ⟨"a", 1⟩⟩]⟩ : SimpleLRU (List (String × Nat)) Nat).Set "a" 7 []
          = .ok (l1, w1)
      ∧ entries l1 = ⟨"a", 7⟩ :: rest
      ∧ l1.Set "a" 9 w1 = .ok (l2, callEvictAll l1.evictCallback [] w1)
      ∧ l2.Len = l1.Len
      ∧ entries l2 = ⟨"a", 9⟩ :: rest
      ∧ l2.Get "a" = .ok (l3, (some 9, true)) :=
  have hreach : Reachable (⟨2, some recordEvict, [("a", 1), ("b", 2)],
      [⟨2, ⟨"b", 2⟩⟩, ⟨1, ⟨"a", 1⟩⟩]⟩ : SimpleLRU (List (String × Nat)) Nat) :=
    ⟨2, some recordEvict, ⟨2, some recordEvict, [], []⟩, [],
      [Op.Set "a" 1, Op.Set "b" 2], [], [Ret.unit, Ret.unit], rfl, rfl⟩
  ⟨hreach, by decide, set_existing_key _ hreach (by decide) "a" 7 9 []⟩

theorem mapGet_mapDelete_of_ne (m : List (String × Nat)) {k k1 : String} (h : k1 ≠ k) :
    mapGet (mapDelete m k) k1 = mapGet m k1 := by
  induction m with
  | nil => rfl
  | cons b m ih =>
    obtain ⟨k2, q⟩ := b
    unfold mapDelete at ih ⊢
    by_cases h2 : k2 = k
    · have h3 : k2 ≠ k1 := by
        intro h3
        exact h (h3 ▸ h2)
      simpa [List.filter_cons, h2, mapGet, h3, h2 ▸ h3] using ih
    · by_cases h3 : k2 = k1
      · subst h3
        simp [List.filter_cons, h2, mapGet]
      · simpa [List.filter_cons, h2, mapGet, h3] using ih

/-- Claim C8: in a reachable state, `Remove(k)` returns with the callback called on
nothing. The recency order is then the old one without the entity of `k`, the
other entities in their order with their values; the index is the old one
without the binding of `k`, the other keys bound as before; the capacity and
the callback are unchanged. If the cache does not hold `k` the state is
unchanged. -/
theorem remove_deletes_entry {W V : Type} (l : SimpleLRU W V) (h : Reachable l) (k : String)
    (w : W) :
    step l w (Op.Remove k) = .ok (l.Remove k, callEvictAll l.evictCallback [] w, Ret.unit)
    ∧ entries (l.Remove k) = (entries l).filter (fun e => decide (e.key ≠ k))
    ∧ (l.Remove k).lookup = l.lookup.filter (fun b => decide (b.1 ≠ k))
    ∧ mapGet (l.Remove k).lookup k = none
    ∧ (∀ k1, k1 ≠ k → mapGet (l.Remove k).lookup k1 = mapGet l.lookup k1)
    ∧ (l.Remove k).cap = l.cap ∧ (l.Remove k).evictCallback = l.evictCallback
    ∧ (mapGet l.lookup k = none → l.Remove k = l) := by
  have hwf := h.inv.1
  have heq := Remove_eq l hwf k
  refine ⟨rfl, ?_, ?_, ?_, ?_, ?_, ?_, ?_⟩
  · rw [heq]
    simp only [entries, ← entries_filter]
  · rw [heq]
    rfl
  · rw [heq]
    exact mapGet_mapDelete_self _ _
  · intro k1 hk1
    rw [heq]
    exact mapGet_mapDelete_of_ne _ hk1
  · rw [heq]
  · rw [heq]
  · intro hk
    simp only [SimpleLRU.Remove, hk]

/-- Witness of claim C8: the key `"a"` removed from a cache that holds `"b"` and `"a"`. -/
theorem remove_deletes_entry_witness :
    Reachable (⟨2, some recordEvict, [("a", 1), ("b", 2)],
      [⟨2, ⟨"b", 2⟩⟩, ⟨1, ⟨"a", 1⟩⟩]⟩ : SimpleLRU (List (String × Nat)) Nat)
    ∧ entries ((⟨2, some recordEvict, [("a", 1), ("b", 2)],
        [⟨2, ⟨"b", 2⟩⟩, ⟨1, ⟨"a", 1⟩⟩]⟩ : SimpleLRU (List (String × Nat)) Nat).Remove "a")
      = ([⟨"b", 2⟩, ⟨"a", 1⟩] : List (entity Nat)).filter (fun e => decide (e.key ≠ "a")) :=
  have hreach : Reachable (⟨2, some recordEvict, [("a", 1), ("b", 2)],
      [⟨2, ⟨"b", 2⟩⟩, ⟨1, ⟨"a", 1⟩⟩]⟩ : SimpleLRU (List (String × Nat)) Nat) :=
    ⟨2, some recordEvict, ⟨2, some recordEvict, [], []⟩, [],
      [Op.Set "a" 1, Op.Set "b" 2], [], [Ret.unit, Ret.unit], rfl, rfl⟩
  ⟨hreach, (remove_deletes_entry _ hreach "a" []).2.1⟩

/-- Claim C9: for every state and every key `k`, a second `Remove(k)` leaves the state
that the first one produced, and `Get(k)` after `Remove(k)` returns
`(nil, false)` and leaves that state too. -/
theorem remove_idempotent {W V : Type} (l : SimpleLRU W V) (k : String) :
    (l.Remove k).Remove k = l.Remove k
    ∧ (l.Remove k).Get k = .ok (l.Remove k, (none, false)) := by
  have hnone : mapGet (l.Remove k).lookup k = none := by
    cases hg : mapGet l.lookup k with
    | none => simp only [SimpleLRU.Remove, hg]
    | some p =>
      simp only [SimpleLRU.Remove, hg]
      exact mapGet_mapDelete_self _ _
  constructor
  · generalize l.Remove k = l1 at hnone
    simp only [SimpleLRU.Remove, hnone]
  · generalize l.Remove k = l1 at hnone
    simp only [SimpleLRU.Get, hnone]

/-- Claim C10: in a reachable state, for every key `k`, `Get(k)` returns and `SimpleGet(k)`
returns the same pair `(value, found)`, with the state it was called on. -/
theorem simpleGet_same_as_get {W V : Type} (l : SimpleLRU W V) (h : Reachable l)
    (k : String) :
    ∃ l1 r, l.Get k = .ok (l1, r) ∧ l.SimpleGet k = .ok (l, r) := by
  have hwf := h.inv.1
  by_cases hk : k ∈ keysOf l
  · obtain ⟨e, he, rfl⟩ := List.mem_map.mp hk
    exact ⟨_, _, Get_of_mem l hwf he, SimpleGet_of_mem l hwf he⟩
  · exact ⟨_, _, Get_of_not_mem l hwf hk, SimpleGet_of_not_mem l hwf hk⟩

/-- Witness of claim C10: the key `"a"` in a cache that holds `"b"` and `"a"`. -/
theorem simpleGet_same_as_get_witness :
    Reachable (⟨2, some recordEvict, [("a", 1), ("b", 2)],
      [⟨2, ⟨"b", 2⟩⟩, ⟨1, ⟨"a", 1⟩⟩]⟩ : SimpleLRU (List (String × Nat)) Nat)
    ∧ ∃ l1 r, (⟨2, some recordEvict, [("a", 1), ("b", 2)],
        [⟨2, ⟨"b", 2⟩⟩, ⟨1, ⟨"a", 1⟩⟩]⟩ : SimpleLRU (List (String × Nat)) Nat).Get "a"
          = .ok (l1, r)
      ∧ (⟨2, some recordEvict, [("a", 1), ("b", 2)],
        [⟨2, ⟨"b", 2⟩⟩, ⟨1, ⟨"a", 1⟩⟩]⟩ : SimpleLRU (List (String × Nat)) Nat).SimpleGet "a"
          = .ok (⟨2, some recordEvict, [("a", 1), ("b", 2)],
              [⟨2, ⟨"b", 2⟩⟩, ⟨1, ⟨"a", 1⟩⟩]⟩, r) :=
  have hreach : Reachable (⟨2, some recordEvict, [("a", 1), ("b", 2)],
      [⟨2, ⟨"b", 2⟩⟩, ⟨1, ⟨"a", 1⟩⟩]⟩ : SimpleLRU (List (String × Nat)) Nat) :=
    ⟨2, some recordEvict, ⟨2, some recordEvict, [], []⟩, [],
      [Op.Set "a" 1, Op.Set "b" 2], [], [Ret.unit, Ret.unit], rfl, rfl⟩
  ⟨hreach, simpleGet_same_as_get _ hreach "a"⟩

/-! ## Recency after a `Get` -/

/-- The method `Get` on a key that the cache holds, in terms of the recency order. -/
theorem Get_mem_spec {W V : Type} {l : SimpleLRU W V} (h : Inv l) {e : Element V}
    (he : e ∈ l.data) :
    ∃ l1, l.Get e.Value.key = .ok (l1, (some e.Value.val, true)) ∧ Inv l1
      ∧ entries l1 = e.Value :: (entries l).filter (fun x => decide (x.key ≠ e.Value.key))
      ∧ l1.lookup = l.lookup ∧ l1.cap = l.cap ∧ l1.evictCallback = l.evictCallback := by
  refine ⟨_, Get_of_mem l h.1 he, Inv_Get_of_mem h he, ?_, rfl, rfl, rfl⟩
  simp only [entries, List.map_cons, ← entries_filter]

/-- Claim C6: in a reachable state that holds the key `k`, `Get(k)` returns `(v, true)`;
then, for every list of entities with pairwise distinct keys that the cache
does not hold, the calls `Set` on them in order return, the recency order is
the first `cap` entities of the new ones (last inserted first), then `(k, v)`,
then the other old ones, and the callback is called on the entities beyond,
the back one first. So when `k` is no longer held, no key that was held at
the time of the `Get` is held; and when `(k, v)` is among the evicted, the
evictions before it are those of all the other old entities, the oldest
first (also when the cache held `k` alone). -/
theorem get_refreshes_recency {W V : Type} (l : SimpleLRU W V) (h : Reachable l)
    (k : String) (hk : k ∈ keysOf l) (es : List (entity V))
    (hnew : ∀ e ∈ es, e.key ∉ keysOf l) (hnd : (es.map (fun e => e.key)).Nodup) (w : W) :
    ∃ l1 v l2 rs evicted, l.Get k = .ok (l1, (some v, true))
      ∧ run l1 w (es.map (fun e => Op.Set e.key e.val))
          = .ok (l2, callEvictAll l.evictCallback evicted w, rs)
      ∧ entries l2 = (es.reverse ++ ⟨k, v⟩ ::
          (entries l).filter (fun e => decide (e.key ≠ k))).take l.cap.toNat
      ∧ evicted = ((es.reverse ++ ⟨k, v⟩ ::
          (entries l).filter (fun e => decide (e.key ≠ k))).drop l.cap.toNat).reverse
      ∧ (k ∉ keysOf l2 → ∀ k1 ∈ keysOf l, k1 ∉ keysOf l2)
      ∧ ((⟨k, v⟩ : entity V) ∈ evicted → ∃ later,
          evicted = ((entries l).filter (fun e => decide (e.key ≠ k))).reverse
            ++ ⟨k, v⟩ :: later) := by
  have hinv := h.inv
  obtain ⟨e, he, rfl⟩ := List.mem_map.mp hk
  obtain ⟨l1, hget, hinv1, hent1, _, hcap1, hcb1⟩ := Get_mem_spec hinv he
  have hkeys1 : ∀ x, x ∈ keysOf l1 → x ∈ keysOf l := by
    intro x hx
    rw [keysOf_eq, hent1] at hx
    obtain ⟨y, hy, rfl⟩ := List.mem_map.mp hx
    rcases List.mem_cons.mp hy with h1 | h1
    · rw [h1]
      exact hk
    · rw [keysOf_eq]
      exact List.mem_map_of_mem (fun e => e.key) (List.mem_filter.mp h1).1
  obtain ⟨l2, rs, h1, h2, h3, h4, h5⟩ := run_sets_new es l1 w hinv1
    (fun x hx hmem => hnew x hx (hkeys1 _ hmem)) hnd
  rw [hent1, hcap1] at h3
  rw [hent1, hcap1, hcb1] at h1
  refine ⟨l1, e.Value.val, l2, rs, _, hget, h1, h3, rfl, ?_, ?_⟩
  · intro hnot k1 hk1 hmem
    by_cases hlen : es.length < l.cap.toNat
    · apply hnot
      rw [keysOf_eq, h3, List.take_append_eq_append_take]
      obtain ⟨m, hm⟩ : ∃ m, l.cap.toNat - es.reverse.length = m + 1 :=
        ⟨l.cap.toNat - es.length - 1, by rw [List.length_reverse]; omega⟩
      rw [hm, List.take_succ_cons]
      simp
    · rw [keysOf_eq, h3, List.take_append_of_le_length
        (by rw [List.length_reverse]; omega)] at hmem
      obtain ⟨y, hy, rfl⟩ := List.mem_map.mp hmem
      exact hnew y (List.mem_reverse.mp (List.mem_of_mem_take hy)) hk1
  · intro hmem
    by_cases hlen : es.length < l.cap.toNat
    · exfalso
      rw [List.mem_reverse, List.drop_append_eq_append_drop,
        List.drop_eq_nil_of_le (by rw [List.length_reverse]; omega), List.nil_append] at hmem
      obtain ⟨m, hm⟩ : ∃ m, l.cap.toNat - es.reverse.length = m + 1 :=
        ⟨l.cap.toNat - es.length - 1, by rw [List.length_reverse]; omega⟩
      rw [hm, List.drop_succ_cons] at hmem
      have := (List.mem_filter.mp (List.mem_of_mem_drop hmem)).2
      simp at this
    · refine ⟨(es.reverse.drop l.cap.toNat).reverse, ?_⟩
      rw [List.drop_append_of_le_length (by rw [List.length_reverse]; omega),
        List.reverse_append, List.reverse_cons, List.append_assoc]
      rfl

/-- Witness of claim C6: `Get("a")` in a cache of capacity 2 that holds `"b"` and `"a"`,
then `Set` of `"c"`, `"d"`, `"e"`. -/
theorem get_refreshes_recency_witness :
    Reachable (⟨2, some recordEvict, [("a", 1), ("b", 2)],
      [⟨2, ⟨"b", 2⟩⟩, ⟨1, ⟨"a", 1⟩⟩]⟩ : SimpleLRU (List (String × Nat)) Nat)
    ∧ "a" ∈ keysOf (⟨2, some recordEvict, [("a", 1), ("b", 2)],
      [⟨2, ⟨"b", 2⟩⟩, ⟨1, ⟨"a", 1⟩⟩]⟩ : SimpleLRU (List (String × Nat)) Nat)
    ∧ ∃ l1 v l2 rs evicted, (⟨2, some recordEvict, [("a", 1), ("b", 2)],
        [⟨2, ⟨"b", 2⟩⟩, ⟨1, ⟨"a", 1⟩⟩]⟩ : SimpleLRU (List (String × Nat)) Nat).Get "a"
          = .ok (l1, (some v, true))
      ∧ run l1 [] [Op.Set "c" 3, Op.Set "d" 4, Op.Set "e" 5]
          = .ok (l2, callEvictAll (some recordEvict) evicted [], rs)
      ∧ evicted = [⟨"b", 2⟩, ⟨"a", 1⟩, ⟨"c", 3⟩] :=
  have hreach : Reachable (⟨2, some recordEvict, [("a", 1), ("b", 2)],
      [⟨2, ⟨"b", 2⟩⟩, ⟨1, ⟨"a", 1⟩⟩]⟩ : SimpleLRU (List (String × Nat)) Nat) :=
    ⟨2, some recordEvict, ⟨2, some recordEvict, [], []⟩, [],
      [Op.Set "a" 1, Op.Set "b" 2], [], [Ret.unit, Ret.unit], rfl, rfl⟩
  ⟨hreach, by decide,
    let ⟨l1, v, l2, rs, evicted, h1, h2, _, h4, _⟩ := get_refreshes_recency _ hreach "a"
      (by decide) [⟨"c", 3⟩, ⟨"d", 4⟩, ⟨"e", 5⟩] (by decide) (by decide) []
    have hv : v = 1 := by
      have h1a : Except.ok (_, (some 1, true)) = Except.ok (l1, (some v, true)) := h1
      simp only [Except.ok.injEq, Prod.mk.injEq, Option.some.injEq] at h1a
      exact h1a.2.1.symm
    ⟨l1, v, l2, rs, evicted, h1, h2, by rw [h4, hv]; rfl⟩⟩

/-! ## The scenario of the test `testLRU` -/

theorem filter_key_eq_self {V : Type} {T : List (entity V)} {k : String}
    (hk : k ∉ T.map (fun e => e.key)) : T.filter (fun e => decide (e.key ≠ k)) = T := by
  rw [List.filter_eq_self]
  intro e he
  have : e.key ≠ k := by
    intro hek
    apply hk
    rw [← hek]
    exact List.mem_map_of_mem (fun e => e.key) he
  simpa using this

theorem not_mem_keys_take {V : Type} {T : List (entity V)} {k : String} (m : Nat)
    (hk : k ∉ T.map (fun e => e.key)) : k ∉ (T.take m).map (fun e => e.key) := by
  intro h
  obtain ⟨e, he, rfl⟩ := List.mem_map.mp h
  exact hk (List.mem_map_of_mem (fun e => e.key) (List.mem_of_mem_take he))

theorem take_cons_take {α : Type} (c : Nat) (y : α) (ys : List α) :
    (y :: ys.take c).take c = (y :: ys).take c := by
  cases c with
  | zero => rfl
  | succ n => simp [List.take_take]

/-- One round of the loop of `testLRU` on the recency order. -/
theorem nextEntries_get_set {V : Type} (c : Nat) (hc : 2 ≤ c) (e0 x : entity V)
    (rp : List (entity V)) (h0 : e0.key ∉ rp.map (fun e => e.key)) (hx : x.key ≠ e0.key)
    (hxr : x.key ∉ rp.map (fun e => e.key)) :
    nextEntries c (nextEntries c ((refreshedOrder e0 rp).take c) (Op.Get e0.key))
        (Op.Set x.key x.val)
      = (refreshedOrder e0 (x :: rp)).take c := by
  obtain ⟨n, rfl⟩ : ∃ n, c = n + 2 := ⟨c - 2, by omega⟩
  have hx2 : e0.key ≠ x.key := fun h => hx h.symm
  cases rp with
  | nil =>
    simp [nextEntries, refreshedOrder, List.filter_cons, hx2]
  | cons y ys =>
    rw [List.map_cons, List.mem_cons, not_or] at h0 hxr
    have hy0 : y.key ≠ e0.key := fun h => h0.1 h.symm
    have hyx : y.key ≠ x.key := fun h => hxr.1 h.symm
    have hf0 := filter_key_eq_self (not_mem_keys_take n h0.2)
    have hfx := filter_key_eq_self (not_mem_keys_take n hxr.2)
    have hfind : List.find? (fun e => decide (e.key = e0.key)) (y :: e0 :: List.take n ys)
        = some e0 := by
      simp [List.find?_cons, hy0]
    have hfilter0 : List.filter (fun e => decide (e.key ≠ e0.key)) (y :: e0 :: List.take n ys)
        = y :: List.take n ys := by
      rw [List.filter_cons, List.filter_cons, hf0]
      simp [hy0]
    have hfilterx : List.filter (fun e => decide (e.key ≠ x.key)) (e0 :: y :: List.take n ys)
        = e0 :: y :: List.take n ys := by
      rw [List.filter_cons, List.filter_cons, hfx]
      simp [hyx, hx2]
    simp only [refreshedOrder, List.take_succ_cons, nextEntries, hfind, hfilter0, hfilterx]
    rw [take_cons_take]

theorem nextEntriesAll_cons {V : Type} (c : Nat) (es : List (entity V)) (op : Op V)
    (ops : List (Op V)) :
    nextEntriesAll c es (op :: ops) = nextEntriesAll c (nextEntries c es op) ops := rfl

theorem readThenSet_cons {V : Type} (k0 : String) (x : entity V) (t : List (entity V)) :
    readThenSet k0 (x :: t) = Op.Get k0 :: Op.Set x.key x.val :: readThenSet k0 t := rfl

/-- The loop of `testLRU` on the recency order. -/
theorem nextEntriesAll_readThenSet {V : Type} (c : Nat) (hc : 2 ≤ c) (e0 : entity V)
    (es rp : List (entity V))
    (hnd : ((e0 :: (rp.reverse ++ es)).map (fun e => e.key)).Nodup) :
    nextEntriesAll c ((refreshedOrder e0 rp).take c) (readThenSet e0.key es)
      = (refreshedOrder e0 (es.reverse ++ rp)).take c := by
  induction es generalizing rp with
  | nil => rfl
  | cons x t ih =>
    have hnd2 : ((e0 :: ((x :: rp).reverse ++ t)).map (fun e => e.key)).Nodup := by
      simpa using hnd
    have hkeys : e0.key ∉ rp.map (fun e => e.key) ∧ x.key ≠ e0.key
        ∧ x.key ∉ rp.map (fun e => e.key) := by
      simp only [List.map_cons, List.map_append, List.map_reverse, List.nodup_cons,
        List.mem_append, List.mem_cons, List.mem_reverse, List.nodup_append,
        List.nodup_reverse, not_or] at hnd
      refine ⟨hnd.1.1, fun h => hnd.1.2.1 h.symm, ?_⟩
      intro hmem
      exact hnd.2.2.2 (List.mem_reverse.mpr hmem) (List.mem_cons_self _ _)
    have hstep := nextEntries_get_set c hc e0 x rp hkeys.1 hkeys.2.1 hkeys.2.2
    rw [readThenSet_cons]
    simp only [nextEntriesAll]
    rw [hstep, ih (x :: rp) hnd2]
    simp

/-- The calls of `testLRU` after its loop, on a recency order `a :: b :: T`. -/
theorem resultsOf_after_loop {V : Type} (c : Nat) (a b : entity V) (T : List (entity V))
    (k1 : String) (wv : V) (hlen : (a :: b :: T).length ≤ c)
    (hab : a.key ≠ b.key) (haT : a.key ∉ T.map (fun e => e.key))
    (hbT : b.key ∉ T.map (fun e => e.key))
    (hk1 : k1 ∉ (a :: b :: T).map (fun e => e.key)) :
    resultsOf c (a :: b :: T) [Op.Get k1, Op.Get b.key, Op.Get a.key, Op.Set a.key wv,
        Op.Get a.key, Op.Remove a.key, Op.Get a.key]
      = [Ret.value none false, Ret.value (some b.val) true, Ret.value (some a.val) true,
          Ret.unit, Ret.value (some wv) true, Ret.unit, Ret.value none false] := by
  have hba : b.key ≠ a.key := fun h => hab h.symm
  have hfa := filter_key_eq_self haT
  have hfb := filter_key_eq_self hbT
  have hfind1 := find_key_eq_none hk1
  have hfindaT := find_key_eq_none haT
  have e1 : List.find? (fun e => decide (e.key = b.key)) (a :: b :: T) = some b := by
    simp [List.find?_cons, hab]
  have e2 : List.filter (fun e => decide (e.key ≠ b.key)) (a :: b :: T) = a :: T := by
    rw [List.filter_cons, List.filter_cons, hfb]
    simp [hab]
  have e3 : List.find? (fun e => decide (e.key = a.key)) (b :: a :: T) = some a := by
    simp [List.find?_cons, hba]
  have e4 : List.filter (fun e => decide (e.key ≠ a.key)) (b :: a :: T) = b :: T := by
    rw [List.filter_cons, List.filter_cons, hfa]
    simp [hba]
  have e5 : List.filter (fun e => decide (e.key ≠ a.key)) (a :: b :: T) = b :: T := by
    rw [List.filter_cons, List.filter_cons, hfa]
    simp [hba]
  have e6 : List.take c ((⟨a.key, wv⟩ : entity V) :: b :: T) = ⟨a.key, wv⟩ :: b :: T :=
    List.take_of_length_le (by simpa using hlen)
  have e7 : List.find? (fun e => decide (e.key = a.key)) ((⟨a.key, wv⟩ : entity V) :: b :: T)
      = some ⟨a.key, wv⟩ := by
    simp [List.find?_cons]
  have e8 : List.filter (fun e => decide (e.key ≠ a.key)) ((⟨a.key, wv⟩ : entity V) :: b :: T)
      = b :: T := by
    rw [List.filter_cons, List.filter_cons, hfa]
    simp [hba]
  have e9 : List.find? (fun e => decide (e.key = a.key)) (b :: T) = none := by
    rw [List.find?_cons, hfindaT]
    simp [hba]
  simp only [resultsOf, resultOf, lookupResult, nextEntries, hfind1, e1, e2, e3, e4, e5, e6,
    e7, e8, e9]

/-- Claim C7: for every capacity `c ≥ 2` and every list of more than `c` entities with
pairwise distinct keys, `e0 :: e1 :: (mid ++ [elast])`, on the cache that
`NewSimpleLRUWithEvict c cb` returns, the loop of `testLRU` (before each
`Set(e.key, e.val)`, in the order of the list, a `Get(e0.key)`) returns and
leaves the recency order `elast`, `e0`, then the `c - 2` entities inserted
before `elast`, the last inserted first: `e0` and the last `c - 1` entities
inserted. The calls `Get(e1.key)`, `Get(e0.key)`, `Get(elast.key)`,
`Set(elast.key, wv)`, `Get(elast.key)`, `Remove(elast.key)`, `Get(elast.key)`
that follow return `(nil, false)`, `(e0.val, true)`, `(elast.val, true)`,
nothing, `(wv, true)`, nothing, `(nil, false)`. -/
theorem testLRU_scenario {W V : Type} (c : Nat) (hc : 2 ≤ c) (e0 e1 : entity V)
    (mid : List (entity V)) (elast : entity V)
    (hn : c < (e0 :: e1 :: (mid ++ [elast])).length)
    (hnd : ((e0 :: e1 :: (mid ++ [elast])).map (fun e => e.key)).Nodup) (wv : V)
    (cb : Option (EvictCallback W V)) (w0 : W) :
    ∃ l0 l w rs l1 w1, SimpleLRU.NewSimpleLRUWithEvict (c : Int) cb = .ok l0
      ∧ run l0 w0 (readThenSet e0.key (e0 :: e1 :: (mid ++ [elast]))) = .ok (l, w, rs)
      ∧ entries l = elast :: e0 :: mid.reverse.take (c - 2)
      ∧ (entries l).Perm (e0 :: (e0 :: e1 :: (mid ++ [elast])).reverse.take (c - 1))
      ∧ run l w [Op.Get e1.key, Op.Get e0.key, Op.Get elast.key, Op.Set elast.key wv,
            Op.Get elast.key, Op.Remove elast.key, Op.Get elast.key]
          = .ok (l1, w1, [Ret.value none false, Ret.value (some e0.val) true,
              Ret.value (some elast.val) true, Ret.unit, Ret.value (some wv) true,
              Ret.unit, Ret.value none false]) := by
  obtain ⟨n, rfl⟩ : ∃ n, c = n + 2 := ⟨c - 2, by omega⟩
  have hmid : n ≤ mid.reverse.length := by
    simp only [List.length_cons, List.length_append, List.length_nil,
      List.length_reverse] at hn ⊢
    omega
  obtain ⟨l0, h0, hinv0, hdata0, _, hcap0, _⟩ := Inv_New cb (Int.natCast_nonneg (n + 2))
  have hent0 : entries l0 = [] := by simp [entries, hdata0]
  obtain ⟨l, h1, h2, h3, h4, _⟩ := run_refines
    (readThenSet e0.key (e0 :: e1 :: (mid ++ [elast]))) l0 w0 hinv0
  have hcapl : l.cap.toNat = n + 2 := by rw [h4, hcap0, Int.toNat_natCast]
  rw [hcap0, Int.toNat_natCast, hent0] at h3
  have hfirst : nextEntries (n + 2) (nextEntries (n + 2) ([] : List (entity V))
      (Op.Get e0.key)) (Op.Set e0.key e0.val) = (refreshedOrder e0 []).take (n + 2) := by
    simp [nextEntries, refreshedOrder]
  have hloop := nextEntriesAll_readThenSet (n + 2) hc e0 (e1 :: (mid ++ [elast])) []
    (by simpa using hnd)
  have hentries : entries l = elast :: e0 :: mid.reverse.take n := by
    rw [h3, readThenSet_cons, nextEntriesAll_cons, nextEntriesAll_cons, hfirst, hloop]
    simp only [List.reverse_cons, List.reverse_append, List.reverse_nil, List.nil_append,
      List.append_nil, List.singleton_append, List.cons_append, refreshedOrder,
      List.take_succ_cons]
    rw [List.take_append_of_le_length hmid]
  have hkeys : elast.key ≠ e0.key ∧ elast.key ∉ mid.map (fun e => e.key)
      ∧ e0.key ∉ mid.map (fun e => e.key) ∧ e1.key ≠ elast.key ∧ e1.key ≠ e0.key
      ∧ e1.key ∉ mid.map (fun e => e.key) := by
    simp only [List.map_cons, List.map_append, List.map_nil, List.nodup_cons, List.mem_cons,
      List.mem_append, List.nodup_append, List.mem_singleton, not_or, List.not_mem_nil,
      List.disjoint_singleton, List.nodup_nil, not_false_eq_true, and_true, true_and] at hnd
    obtain ⟨⟨a1, a2, a3⟩, ⟨a4, a5⟩, _, a7⟩ := hnd
    exact ⟨fun h => a3 h.symm, a7, a2, a5, fun h => a1 h.symm, a4⟩
  have hrev : ∀ k : String, k ∉ mid.map (fun e => e.key) →
      k ∉ (mid.reverse.take n).map (fun e => e.key) := by
    intro k hk
    apply not_mem_keys_take
    rw [List.map_reverse, List.mem_reverse]
    exact hk
  obtain ⟨l1, e1', _, _, _, _⟩ := run_refines [Op.Get e1.key, Op.Get e0.key, Op.Get elast.key,
    Op.Set elast.key wv, Op.Get elast.key, Op.Remove elast.key, Op.Get elast.key] l
    (callEvictAll l0.evictCallback (evictedByAll l0.cap.toNat (entries l0)
      (readThenSet e0.key (e0 :: e1 :: (mid ++ [elast])))) w0) h2
  rw [hcapl, hentries, resultsOf_after_loop (n + 2) elast e0 (mid.reverse.take n) e1.key wv
    (by simp only [List.length_cons, List.length_take]; omega)
    hkeys.1 (hrev _ hkeys.2.1) (hrev _ hkeys.2.2.1)
    (by
      rw [List.map_cons, List.map_cons, List.mem_cons, List.mem_cons, not_or, not_or]
      exact ⟨hkeys.2.2.2.1, hkeys.2.2.2.2.1, hrev _ hkeys.2.2.2.2.2⟩)] at e1'
  refine ⟨l0, l, _, _, l1, _, h0, h1, hentries, ?_, e1'⟩
  rw [hentries]
  simp only [List.reverse_cons, List.reverse_append, List.reverse_nil, List.nil_append,
    List.singleton_append, List.cons_append, Nat.add_one_sub_one, Nat.add_sub_cancel,
    List.take_succ_cons]
  rw [List.append_assoc, List.take_append_of_le_length hmid]
  exact List.Perm.swap _ _ _

/-- Witness of claim C7: the instance of `testLRU`, capacity 5, keys `"0"` to `"9"` with the
values 0 to 9, and the value 1000. -/
theorem testLRU_scenario_witness :
    ∃ l0 l w rs l1 w1,
      SimpleLRU.NewSimpleLRUWithEvict ((5 : Nat) : Int) (some recordEvict) = .ok l0
      ∧ run l0 ([] : List (String × Nat)) (readThenSet "0"
          ((⟨"0", 0⟩ : entity Nat) :: ⟨"1", 1⟩ :: ([⟨"2", 2⟩, ⟨"3", 3⟩, ⟨"4", 4⟩, ⟨"5", 5⟩,
            ⟨"6", 6⟩, ⟨"7", 7⟩, ⟨"8", 8⟩] ++ [⟨"9", 9⟩]))) = .ok (l, w, rs)
      ∧ entries l = ⟨"9", 9⟩ :: ⟨"0", 0⟩ ::
          ([⟨"2", 2⟩, ⟨"3", 3⟩, ⟨"4", 4⟩, ⟨"5", 5⟩, ⟨"6", 6⟩, ⟨"7", 7⟩,
            ⟨"8", 8⟩] : List (entity Nat)).reverse.take (5 - 2)
      ∧ run l w [Op.Get "1", Op.Get "0", Op.Get "9", Op.Set "9" 1000, Op.Get "9",
            Op.Remove "9", Op.Get "9"]
          = .ok (l1, w1, [Ret.value none false, Ret.value (some 0) true,
              Ret.value (some 9) true, Ret.unit, Ret.value (some 1000) true, Ret.unit,
              Ret.value none false]) :=
  let ⟨l0, l, w, rs, l1, w1, h0, h1, h2, _, h4⟩ := testLRU_scenario 5 (by decide)
    (⟨"0", 0⟩ : entity Nat) ⟨"1", 1⟩ [⟨"2", 2⟩, ⟨"3", 3⟩, ⟨"4", 4⟩, ⟨"5", 5⟩, ⟨"6", 6⟩,
      ⟨"7", 7⟩, ⟨"8", 8⟩] ⟨"9", 9⟩ (by decide) (by decide) 1000 (some recordEvict) []
  ⟨l0, l, w, rs, l1, w1, h0, h1, h2, h4⟩

/-! ## `Clear`, the constructor and the capacity zero -/

/-- Claim C11: in a reachable state, `Clear()` returns with the callback called on
nothing and leaves a cache with `Len() == 0` in which `Get(k)` returns
`(nil, false)` for every key `k`, with the capacity and the callback it had:
the state is the one that the constructor returns for this capacity and this
callback. -/
theorem clear_gives_fresh_cache {W V : Type} (l : SimpleLRU W V) (h : Reachable l) (w : W) :
    step l w Op.Clear = .ok (l.Clear, callEvictAll l.evictCallback [] w, Ret.unit)
    ∧ l.Clear.Len = 0
    ∧ (∀ k, l.Clear.Get k = .ok (l.Clear, (none, false)))
    ∧ l.Clear.cap = l.cap ∧ l.Clear.evictCallback = l.evictCallback
    ∧ SimpleLRU.NewSimpleLRUWithEvict l.cap l.evictCallback = .ok l.Clear := by
  have hc := h.inv.1.capNonneg
  refine ⟨rfl, rfl, fun k => rfl, rfl, rfl, ?_⟩
  simp [SimpleLRU.NewSimpleLRUWithEvict, not_lt.mpr hc, SimpleLRU.Clear]

/-- Witness of claim C11: `Clear()` on a cache that holds `"b"` and `"a"`. -/
theorem clear_gives_fresh_cache_witness :
    Reachable (⟨2, some recordEvict, [("a", 1), ("b", 2)],
      [⟨2, ⟨"b", 2⟩⟩, ⟨1, ⟨"a", 1⟩⟩]⟩ : SimpleLRU (List (String × Nat)) Nat)
    ∧ SimpleLRU.NewSimpleLRUWithEvict 2 (some recordEvict)
      = .ok (⟨2, some recordEvict, [("a", 1), ("b", 2)],
          [⟨2, ⟨"b", 2⟩⟩, ⟨1, ⟨"a", 1⟩⟩]⟩ : SimpleLRU (List (String × Nat)) Nat).Clear :=
  have hreach : Reachable (⟨2, some recordEvict, [("a", 1), ("b", 2)],
      [⟨2, ⟨"b", 2⟩⟩, ⟨1, ⟨"a", 1⟩⟩]⟩ : SimpleLRU (List (String × Nat)) Nat) :=
    ⟨2, some recordEvict, ⟨2, some recordEvict, [], []⟩, [],
      [Op.Set "a" 1, Op.Set "b" 2], [], [Ret.unit, Ret.unit], rfl, rfl⟩
  ⟨hreach, (clear_gives_fresh_cache _ hreach []).2.2.2.2.2⟩

theorem entries_length_le {W V : Type} {l : SimpleLRU W V} (h : Inv l) :
    (entries l).length ≤ l.cap.toNat := by
  have := h.2
  have hc := h.1.capNonneg
  simp only [SimpleLRU.Len, GoList.Len] at this
  simp only [entries, List.length_map]
  omega

theorem Len_eq_entries_length {W V : Type} (l : SimpleLRU W V) :
    l.Len = ((entries l).length : Int) := by
  simp [SimpleLRU.Len, GoList.Len, entries]

/-- Claim C13: in every state of a cache of capacity 0 that a sequence of calls
produces from the constructor, the first one included, `Set(k, v)` returns
with the callback called once, on `(k, v)`, and on nothing else; `Len()` is
then 0 and `Get(k)` returns `(nil, false)`. -/
theorem set_on_capacity_zero {W V : Type} (l : SimpleLRU W V) (h : Reachable l)
    (hc : l.cap = 0) (k : String) (v : V) (w : W) :
    ∃ l1, l.Set k v w = .ok (l1, callEvictAll l.evictCallback [⟨k, v⟩] w)
      ∧ callEvictAll l.evictCallback [⟨k, v⟩] w = callEvict l.evictCallback k v w
      ∧ l1.Len = 0 ∧ entries l1 = []
      ∧ l1.Get k = .ok (l1, (none, false)) := by
  have hinv := h.inv
  have hlen := entries_length_le hinv
  rw [hc] at hlen
  have hnil : entries l = [] := List.length_eq_zero.mp (Nat.le_zero.mp hlen)
  obtain ⟨l1, h1, h2, h3, h4, h5⟩ := Set_spec l k v w hinv.1
  rw [hc, hnil] at h1 h3
  simp only [Int.toNat_zero, List.filter_nil, List.drop_zero, List.reverse_cons,
    List.reverse_nil, List.nil_append] at h1
  simp only [Int.toNat_zero, List.take_zero] at h3
  refine ⟨l1, h1, rfl, ?_, h3, ?_⟩
  · rw [Len_eq_entries_length, h3]
    rfl
  · apply Get_of_not_mem l1 h2.1
    rw [keysOf_eq, h3]
    simp

/-- Witness of claim C13: `Set("a", 1)` on the cache that `NewSimpleLRUWithEvict(0, cb)`
returns, with the recording callback. -/
theorem set_on_capacity_zero_witness :
    Reachable (⟨0, some recordEvict, [], []⟩ : SimpleLRU (List (String × Nat)) Nat)
    ∧ ∃ l1, (⟨0, some recordEvict, [], []⟩ : SimpleLRU (List (String × Nat)) Nat).Set "a" 1 []
        = .ok (l1, [("a", 1)])
      ∧ l1.Len = 0
      ∧ l1.Get "a" = .ok (l1, (none, false)) :=
  have hreach : Reachable (⟨0, some recordEvict, [], []⟩ :
      SimpleLRU (List (String × Nat)) Nat) :=
    ⟨0, some recordEvict, ⟨0, some recordEvict, [], []⟩, [], [], [], [], rfl, rfl⟩
  ⟨hreach,
    let ⟨l1, h1, _, h3, _, h5⟩ := set_on_capacity_zero _ hreach rfl "a" 1 []
    ⟨l1, h1, h3, h5⟩⟩

/-! ## The index and the list -/

/-- Claim C14: in every state that a sequence of calls produces from the cache that
`NewSimpleLRUWithEvict c cb` returns, `c ≥ 0`: the index has as many bindings
as the list has elements, at most `c`; no key is bound twice in the index, no
key and no element occurs twice in the list; a key that the index binds is
bound to exactly one element of the list, and this element stores that key;
every element of the list is what exactly one key of the index is bound to,
the key that it stores. -/
theorem index_matches_list {W V : Type} (c : Int) (hc : 0 ≤ c)
    (cb : Option (EvictCallback W V)) (w0 : W) (ops : List (Op V)) :
    ∃ l0 l w rs, SimpleLRU.NewSimpleLRUWithEvict c cb = .ok l0
      ∧ run l0 w0 ops = .ok (l, w, rs)
      ∧ l.lookup.length = l.data.length ∧ (l.data.length : Int) ≤ c
      ∧ (l.lookup.map Prod.fst).Nodup
      ∧ (keysOf l).Nodup ∧ (l.data.map (fun e => e.ptr)).Nodup
      ∧ (∀ k p, mapGet l.lookup k = some p →
          (∃! e, e ∈ l.data ∧ e.ptr = p) ∧ (∀ e ∈ l.data, e.ptr = p → e.Value.key = k))
      ∧ (∀ e ∈ l.data, (∃! k, mapGet l.lookup k = some e.ptr)
          ∧ mapGet l.lookup e.Value.key = some e.ptr) := by
  obtain ⟨l0, h0, hinv0, _, _, hcap0, _⟩ := Inv_New cb hc
  obtain ⟨l, w, rs, h1, h2, h3, _⟩ := run_spec ops l0 w0 hinv0
  have hwf := h2.1
  refine ⟨l0, l, w, rs, h0, h1, ?_, ?_, hwf.mapKeys, hwf.keys, hwf.ptrs, ?_, ?_⟩
  · rw [hwf.index.length_eq, List.length_map]
  · have := h2.2
    rw [h3, hcap0] at this
    exact this
  · intro k p hg
    obtain ⟨e, he, hek, hep, _⟩ := hwf.get_some hg
    refine ⟨⟨e, ⟨he, hep⟩, ?_⟩, ?_⟩
    · rintro y ⟨hy, hyp⟩
      exact List.inj_on_of_nodup_map hwf.ptrs hy he (hyp.trans hep.symm)
    · intro y hy hyp
      have : y = e := List.inj_on_of_nodup_map hwf.ptrs hy he (hyp.trans hep.symm)
      rw [this, hek]
  · intro e he
    refine ⟨⟨e.Value.key, hwf.get_of_mem he, ?_⟩, hwf.get_of_mem he⟩
    intro k hk
    obtain ⟨y, hy, hyk, hyp, _⟩ := hwf.get_some hk
    have : y = e := List.inj_on_of_nodup_map hwf.ptrs hy he hyp
    rw [← hyk, this]

/-- Witness of claim C14: capacity 2 and five calls. -/
theorem index_matches_list_witness :
    (0 : Int) ≤ 2 ∧
    ∃ l0 l w rs, SimpleLRU.NewSimpleLRUWithEvict 2 (some recordEvict) = .ok l0
      ∧ run l0 ([] : List (String × Nat))
          [Op.Set "a" 1, Op.Set "b" 2, Op.Get "a", Op.Set "c" 3, Op.Remove "a"]
          = .ok (l, w, rs)
      ∧ l.lookup.length = l.data.length ∧ (l.data.length : Int) ≤ 2 :=
  ⟨by decide,
    let ⟨l0, l, w, rs, h0, h1, h2, h3, _⟩ := index_matches_list 2 (by decide)
      (some recordEvict) ([] : List (String × Nat))
      [Op.Set "a" 1, Op.Set "b" 2, Op.Get "a", Op.Set "c" 3, Op.Remove "a"]
    ⟨l0, l, w, rs, h0, h1, h2, h3⟩⟩

/-! ## The order of the entities that a call does not touch -/

theorem filter_key_idem {V : Type} (es : List (entity V)) (k : String) :
    (es.filter (fun e => decide (e.key ≠ k))).filter (fun e => decide (e.key ≠ k))
      = es.filter (fun e => decide (e.key ≠ k)) := by
  rw [List.filter_filter]
  apply List.filter_congr
  intro x _
  simp

/-- The entities of the other keys after a call on the key `k` are the first
ones of the entities of the other keys before it. -/
theorem filter_nextEntries_prefix {V : Type} (c : Nat) (es : List (entity V)) (k : String)
    (op : Op V)
    (hop : (∃ v, op = Op.Set k v) ∨ op = Op.Get k ∨ op = Op.SimpleGet k ∨ op = Op.Remove k) :
    (nextEntries c es op).filter (fun e => decide (e.key ≠ k))
      <+: es.filter (fun e => decide (e.key ≠ k)) := by
  rcases hop with ⟨v, rfl⟩ | rfl | rfl | rfl
  · have h1 := (List.take_prefix c ((⟨k, v⟩ : entity V) ::
      es.filter (fun e => decide (e.key ≠ k)))).filter (fun e => decide (e.key ≠ k))
    have h2 : ((⟨k, v⟩ : entity V) :: es.filter (fun e => decide (e.key ≠ k))).filter
        (fun e => decide (e.key ≠ k)) = es.filter (fun e => decide (e.key ≠ k)) := by
      rw [List.filter_cons, filter_key_idem]
      simp
    rw [h2] at h1
    exact h1
  · simp only [nextEntries]
    cases hf : es.find? (fun e => decide (e.key = k)) with
    | none => exact List.prefix_refl _
    | some a =>
      have hak : a.key = k := by simpa using List.find?_some hf
      simp only
      rw [List.filter_cons, filter_key_idem]
      simp [hak]
  · exact List.prefix_refl _
  · simp only [nextEntries]
    rw [filter_key_idem]

/-- Claim C15: in a reachable state, for a call `Set(k, v)`, `Get(k)`, `SimpleGet(k)` or
`Remove(k)`: the call returns, and the entities of the keys other than `k`
that the cache holds after it are, in recency order and with their values,
the first ones of the entities of the keys other than `k` that it held
before it (all of them, but for those that a `Set` evicts from the back).
So two entities of other keys, one before the other after the call, were in
this order before the call, with the same values. -/
theorem untouched_order_preserved {W V : Type} (l : SimpleLRU W V) (h : Reachable l)
    (k : String) (op : Op V) (w : W)
    (hop : (∃ v, op = Op.Set k v) ∨ op = Op.Get k ∨ op = Op.SimpleGet k ∨ op = Op.Remove k) :
    ∃ l1 w1 r, step l w op = .ok (l1, w1, r)
      ∧ (entries l1).filter (fun e => decide (e.key ≠ k))
          <+: (entries l).filter (fun e => decide (e.key ≠ k))
      ∧ ((entries l1).filter (fun e => decide (e.key ≠ k))).Sublist (entries l)
      ∧ (∀ a b : entity V, a.key ≠ k → b.key ≠ k →
          [a, b].Sublist (entries l1) → [a, b].Sublist (entries l)) := by
  obtain ⟨l1, h1, _, h3, _, _⟩ := step_refines l w op h.inv
  have hpre := filter_nextEntries_prefix l.cap.toNat (entries l) k op hop
  rw [← h3] at hpre
  have hsub : ((entries l1).filter (fun e => decide (e.key ≠ k))).Sublist (entries l) :=
    hpre.sublist.trans (List.filter_sublist _)
  refine ⟨l1, _, _, h1, hpre, hsub, ?_⟩
  intro a b ha hb hab
  have h4 := hab.filter (fun e => decide (e.key ≠ k))
  have h5 : [a, b].filter (fun e => decide (e.key ≠ k)) = [a, b] := by
    simp [List.filter_cons, ha, hb]
  rw [h5] at h4
  exact h4.trans hsub

/-- Witness of claim C15: `Set("c", 3)` on a full cache of capacity 3 that holds `"b"`,
`"a"` and `"c"`. -/
theorem untouched_order_preserved_witness :
    Reachable (⟨3, some recordEvict, [("a", 1), ("b", 2), ("c", 3)],
      [⟨3, ⟨"c", 0⟩⟩, ⟨2, ⟨"b", 2⟩⟩, ⟨1, ⟨"a", 1⟩⟩]⟩ : SimpleLRU (List (String × Nat)) Nat)
    ∧ ∃ l1 w1 r, step (⟨3, some recordEvict, [("a", 1), ("b", 2), ("c", 3)],
        [⟨3, ⟨"c", 0⟩⟩, ⟨2, ⟨"b", 2⟩⟩, ⟨1, ⟨"a", 1⟩⟩]⟩ : SimpleLRU (List (String × Nat)) Nat)
          [] (Op.Set "c" 3) = .ok (l1, w1, r)
      ∧ ((entries l1).filter (fun e => decide (e.key ≠ "c"))).Sublist
          [⟨"c", 0⟩, ⟨"b", 2⟩, ⟨"a", 1⟩] :=
  have hreach : Reachable (⟨3, some recordEvict, [("a", 1), ("b", 2), ("c", 3)],
      [⟨3, ⟨"c", 0⟩⟩, ⟨2, ⟨"b", 2⟩⟩, ⟨1, ⟨"a", 1⟩⟩]⟩ :
        SimpleLRU (List (String × Nat)) Nat) :=
    ⟨3, some recordEvict, ⟨3, some recordEvict, [], []⟩, [],
      [Op.Set "a" 1, Op.Set "b" 2, Op.Set "c" 0], [], [Ret.unit, Ret.unit, Ret.unit],
      rfl, rfl⟩
  ⟨hreach,
    let ⟨l1, w1, r, h1, _, h3, _⟩ := untouched_order_preserved _ hreach "c" (Op.Set "c" 3) []
      (Or.inl ⟨3, rfl⟩)
    ⟨l1, w1, r, h1, h3⟩⟩

/-! ## The evictions of one `Set` -/

theorem length_filter_key_lt {V : Type} {es : List (entity V)} {k : String}
    (hk : k ∈ es.map (fun e => e.key)) :
    (es.filter (fun e => decide (e.key ≠ k))).length < es.length := by
  rw [List.length_filter_lt_length_iff_exists]
  obtain ⟨e, he, hek⟩ := List.mem_map.mp hk
  exact ⟨e, he, by simp [hek]⟩

theorem drop_of_length_eq_succ {α : Type} {xs : List α} {c : Nat} (h : xs.length = c + 1) :
    ∃ x, xs.getLast? = some x ∧ xs.drop c = [x] := by
  rcases List.eq_nil_or_concat xs with h0 | ⟨init, x, h1⟩
  · rw [h0] at h
    simp at h
  · have hx : xs = init ++ [x] := by simpa using h1
    have hinit : init.length = c := by
      rw [hx] at h
      simpa using h
    refine ⟨x, by rw [hx, List.getLast?_concat], ?_⟩
    rw [hx, List.drop_append_of_le_length (by omega), ← hinit, List.drop_length]
    rfl

/-- Claim C19: in a reachable state of capacity `c`, `Set(k, v)` returns with the callback
called on at most one entity, and what the cache holds then together with this
entity is the recency order after the insertion. The callback is called on
nothing when the cache holds `k` and when `Len() < c`; when the cache does not
hold `k` and `Len() == c` it is called once, on the back entity of the order
after the insertion. -/
theorem set_evicts_at_most_one {W V : Type} (l : SimpleLRU W V) (h : Reachable l)
    (k : String) (v : V) (w : W) :
    ∃ l1 evs, l.Set k v w = .ok (l1, callEvictAll l.evictCallback evs w)
      ∧ evs.length ≤ 1
      ∧ entries l1 ++ evs = ⟨k, v⟩ :: (entries l).filter (fun e => decide (e.key ≠ k))
      ∧ (k ∈ keysOf l → evs = [])
      ∧ (l.Len < l.cap → evs = [])
      ∧ (k ∉ keysOf l → l.Len = l.cap →
          ∃ e, ((⟨k, v⟩ : entity V) :: entries l).getLast? = some e ∧ evs = [e]) := by
  have hinv := h.inv
  have hle := entries_length_le hinv
  have hcap := toNat_cap hinv.1
  obtain ⟨l1, h1, _, h3, _, _⟩ := Set_spec l k v w hinv.1
  have hflen : ((entries l).filter (fun e => decide (e.key ≠ k))).length
      ≤ (entries l).length := List.length_filter_le _ _
  have hdlen : (((⟨k, v⟩ : entity V) :: (entries l).filter
      (fun e => decide (e.key ≠ k))).drop l.cap.toNat).length ≤ 1 := by
    simp only [List.length_drop, List.length_cons]
    omega
  have hrev : ∀ xs : List (entity V), xs.length ≤ 1 → xs.reverse = xs := by
    intro xs hxs
    match xs, hxs with
    | [], _ => rfl
    | [x], _ => rfl
    | _ :: _ :: _, hxs => simp at hxs
  rw [hrev _ hdlen] at h1
  refine ⟨l1, _, h1, hdlen, ?_, ?_, ?_, ?_⟩
  · rw [h3, List.take_append_drop]
  · intro hk
    have := length_filter_key_lt (keysOf_eq l ▸ hk)
    apply List.drop_eq_nil_of_le
    simp only [List.length_cons]
    omega
  · intro hlt
    rw [Len_eq_entries_length, ← hcap] at hlt
    apply List.drop_eq_nil_of_le
    simp only [List.length_cons]
    omega
  · intro hk heq
    rw [Len_eq_entries_length, ← hcap] at heq
    rw [filter_entries_of_not_mem hk]
    apply drop_of_length_eq_succ
    simp only [List.length_cons]
    omega

/-- Witness of claim C19: the new key `"c"` in a full cache of capacity 2, with the
recording callback. -/
theorem set_evicts_at_most_one_witness :
    Reachable (⟨2, some recordEvict, [("a", 1), ("b", 2)],
      [⟨2, ⟨"b", 2⟩⟩, ⟨1, ⟨"a", 1⟩⟩]⟩ : SimpleLRU (List (String × Nat)) Nat)
    ∧ ∃ l1 evs, (⟨2, some recordEvict, [("a", 1), ("b", 2)],
        [⟨2, ⟨"b", 2⟩⟩, ⟨1, ⟨"a", 1⟩⟩]⟩ : SimpleLRU (List (String × Nat)) Nat).Set "c" 3 []
          = .ok (l1, callEvictAll (some recordEvict) evs [])
      ∧ evs.length ≤ 1
      ∧ entries l1 ++ evs = [⟨"c", 3⟩, ⟨"b", 2⟩, ⟨"a", 1⟩] :=
  have hreach : Reachable (⟨2, some recordEvict, [("a", 1), ("b", 2)],
      [⟨2, ⟨"b", 2⟩⟩, ⟨1, ⟨"a", 1⟩⟩]⟩ : SimpleLRU (List (String × Nat)) Nat) :=
    ⟨2, some recordEvict, ⟨2, some recordEvict, [], []⟩, [],
      [Op.Set "a" 1, Op.Set "b" 2], [], [Ret.unit, Ret.unit], rfl, rfl⟩
  ⟨hreach,
    let ⟨l1, evs, h1, h2, h3, _⟩ := set_evicts_at_most_one _ hreach "c" 3 []
    ⟨l1, evs, h1, h2, h3⟩⟩

/-! ## No call panics -/

theorem evictLoop_succ {W V : Type} (fuel : Nat) (l : SimpleLRU W V) (w : W)
    (r : SimpleLRU W V × W) (h : SimpleLRU.evictLoop fuel l w = .ok r) :
    SimpleLRU.evictLoop (fuel + 1) l w = .ok r := by
  induction fuel generalizing l w with
  | zero =>
    unfold SimpleLRU.evictLoop at h ⊢
    by_cases hlen : l.Len > l.cap
    · rw [if_pos hlen] at h
      cases hb : GoList.Back l.data with
      | none => simp [hb] at h
      | some ele => simp [hb] at h
    · rw [if_neg hlen] at h ⊢
      exact h
  | succ n ih =>
    unfold SimpleLRU.evictLoop at h ⊢
    by_cases hlen : l.Len > l.cap
    · rw [if_pos hlen] at h ⊢
      cases hb : GoList.Back l.data with
      | none => simp [hb] at h
      | some ele =>
        simp only [hb] at h ⊢
        exact ih _ _ h
    · rw [if_neg hlen] at h ⊢
      exact h

/-- More fuel than the loop of `evict` needs does not change what it returns. -/
theorem evictLoop_mono {W V : Type} {fuel fuel1 : Nat} (hle : fuel ≤ fuel1)
    (l : SimpleLRU W V) (w : W) (r : SimpleLRU W V × W)
    (h : SimpleLRU.evictLoop fuel l w = .ok r) : SimpleLRU.evictLoop fuel1 l w = .ok r := by
  induction hle with
  | refl => exact h
  | step _ ih => exact evictLoop_succ _ l w r ih

/-- Claim C20: in a reachable state, in every world: the loop of `evict` returns, with
the fuel that `evict` gives it and with the same result for any greater
fuel; `Set` returns, and so does the loop of `evict` on the state in which
`Set` calls it (no `Back()` of an empty list, no iteration left undone);
`Get` and `SimpleGet` return; every call, `Remove`, `Clear` and `Len` included,
returns, and so does every sequence of calls. -/
theorem calls_never_panic {W V : Type} (l : SimpleLRU W V) (h : Reachable l) (w : W) :
    (∃ r, l.evict w = .ok r ∧ ∀ fuel, l.data.length ≤ fuel →
        SimpleLRU.evictLoop fuel l w = .ok r)
    ∧ (∀ k v, ∃ l3 r, l.Set k v w = l3.evict w ∧ l.Set k v w = .ok r
        ∧ ∀ fuel, l3.data.length ≤ fuel → SimpleLRU.evictLoop fuel l3 w = .ok r)
    ∧ (∀ k, ∃ r, l.Get k = .ok r)
    ∧ (∀ k, ∃ r, l.SimpleGet k = .ok r)
    ∧ (∀ op, ∃ r, step l w op = .ok r)
    ∧ (∀ ops, ∃ r, run l w ops = .ok r) := by
  have hinv := h.inv
  refine ⟨?_, ?_, ?_, ?_, ?_, ?_⟩
  · obtain ⟨l1, h1, _⟩ := evict_spec l w hinv.1
    exact ⟨_, h1, fun fuel hf => evictLoop_mono hf l w _ h1⟩
  · intro k v
    obtain ⟨l3, h1, h2, _⟩ := Set_eq_evict l k v w hinv.1
    obtain ⟨l1, e1, _⟩ := evict_spec l3 w h2
    exact ⟨l3, _, h1, h1.trans e1, fun fuel hf => evictLoop_mono hf l3 w _ e1⟩
  · intro k
    obtain ⟨l1, _, r, h1, _⟩ := step_spec l w (Op.Get k) hinv
    simp only [step] at h1
    cases hg : l.Get k with
    | error f => simp [hg] at h1
    | ok x => exact ⟨x, rfl⟩
  · intro k
    obtain ⟨l1, _, r, h1, _⟩ := step_spec l w (Op.SimpleGet k) hinv
    simp only [step] at h1
    cases hg : l.SimpleGet k with
    | error f => simp [hg] at h1
    | ok x => exact ⟨x, rfl⟩
  · intro op
    obtain ⟨l1, w1, r, h1, _⟩ := step_spec l w op hinv
    exact ⟨_, h1⟩
  · intro ops
    obtain ⟨l1, w1, rs, h1, _⟩ := run_spec ops l w hinv
    exact ⟨_, h1⟩

/-- Witness of claim C20: a full cache of capacity 2 and `Set("c", 3)`. -/
theorem calls_never_panic_witness :
    Reachable (⟨2, some recordEvict, [("a", 1), ("b", 2)],
      [⟨2, ⟨"b", 2⟩⟩, ⟨1, ⟨"a", 1⟩⟩]⟩ : SimpleLRU (List (String × Nat)) Nat)
    ∧ ∃ l3 r, (⟨2, some recordEvict, [("a", 1), ("b", 2)],
        [⟨2, ⟨"b", 2⟩⟩, ⟨1, ⟨"a", 1⟩⟩]⟩ : SimpleLRU (List (String × Nat)) Nat).Set "c" 3 []
          = l3.evict []
      ∧ (⟨2, some recordEvict, [("a", 1), ("b", 2)],
        [⟨2, ⟨"b", 2⟩⟩, ⟨1, ⟨"a", 1⟩⟩]⟩ : SimpleLRU (List (String × Nat)) Nat).Set "c" 3 []
          = .ok r
      ∧ ∀ fuel, l3.data.length ≤ fuel → SimpleLRU.evictLoop fuel l3 [] = .ok r :=
  have hreach : Reachable (⟨2, some recordEvict, [("a", 1), ("b", 2)],
      [⟨2, ⟨"b", 2⟩⟩, ⟨1, ⟨"a", 1⟩⟩]⟩ : SimpleLRU (List (String × Nat)) Nat) :=
    ⟨2, some recordEvict, ⟨2, some recordEvict, [], []⟩, [],
      [Op.Set "a" 1, Op.Set "b" 2], [], [Ret.unit, Ret.unit], rfl, rfl⟩
  ⟨hreach, (calls_never_panic _ hreach []).2.1 "c" 3⟩

/-! ## The constructors -/

theorem New_error_iff {W V : Type} (cap : Int) (cb : Option (EvictCallback W V)) :
    (∃ f, SimpleLRU.NewSimpleLRUWithEvict cap cb = .error f) ↔ cap < 0 := by
  unfold SimpleLRU.NewSimpleLRUWithEvict
  by_cases hc : cap < 0
  · simp [hc]
  · simp [hc]

theorem New_ok_iff {W V : Type} (cap : Int) (cb : Option (EvictCallback W V)) :
    SimpleLRU.NewSimpleLRUWithEvict cap cb
      = .ok { cap := cap, evictCallback := cb, lookup := [], data := [] } ↔ 0 ≤ cap := by
  unfold SimpleLRU.NewSimpleLRUWithEvict
  by_cases hc : cap < 0
  · simp [hc]
  · simp [hc, not_lt.mp hc]

theorem NewLRU_error_iff {W V : Type} (cap : Int) (cb : Option (EvictCallback W V)) :
    (∃ f, LRU.NewLRUWithEvict cap cb = .error f) ↔ cap < 0 := by
  unfold LRU.NewLRUWithEvict SimpleLRU.NewSimpleLRUWithEvict
  by_cases hc : cap < 0
  · simp [hc]
  · simp [hc]

theorem NewLRU_ok_iff {W V : Type} (cap : Int) (cb : Option (EvictCallback W V)) :
    LRU.NewLRUWithEvict cap cb
      = .ok { mu := { locked := false },
              simple := { cap := cap, evictCallback := cb, lookup := [], data := [] } }
      ↔ 0 ≤ cap := by
  unfold LRU.NewLRUWithEvict SimpleLRU.NewSimpleLRUWithEvict
  by_cases hc : cap < 0
  · simp [hc]
  · simp [hc, not_lt.mp hc]

/-- Claim C12: for every integer `cap` and every callback, each of the constructors
`NewSimpleLRUWithEvict`, `NewSimpleLRU`, `NewLRUWithEvict` and `NewLRU` fails
exactly when `cap < 0`, and returns exactly when `0 ≤ cap`, zero included, what
it returns being the empty cache of capacity `cap` with the callback given (nil
for `NewSimpleLRU` and `NewLRU`), behind a free lock for the two constructors
of `LRU`; `Len()` of the empty cache is 0. -/
theorem constructors_reject_negative_cap {W V : Type} (cap : Int)
    (cb : Option (EvictCallback W V)) :
    ((∃ f, SimpleLRU.NewSimpleLRUWithEvict cap cb = .error f) ↔ cap < 0)
    ∧ ((∃ f, (SimpleLRU.NewSimpleLRU cap : Except Fault (SimpleLRU W V)) = .error f) ↔ cap < 0)
    ∧ ((∃ f, LRU.NewLRUWithEvict cap cb = .error f) ↔ cap < 0)
    ∧ ((∃ f, (LRU.NewLRU cap : Except Fault (LRU W V)) = .error f) ↔ cap < 0)
    ∧ (SimpleLRU.NewSimpleLRUWithEvict cap cb
        = .ok { cap := cap, evictCallback := cb, lookup := [], data := [] } ↔ 0 ≤ cap)
    ∧ ((SimpleLRU.NewSimpleLRU cap : Except Fault (SimpleLRU W V))
        = .ok { cap := cap, evictCallback := none, lookup := [], data := [] } ↔ 0 ≤ cap)
    ∧ (LRU.NewLRUWithEvict cap cb
        = .ok { mu := { locked := false },
                simple := { cap := cap, evictCallback := cb, lookup := [], data := [] } }
        ↔ 0 ≤ cap)
    ∧ ((LRU.NewLRU cap : Except Fault (LRU W V))
        = .ok { mu := { locked := false },
                simple := { cap := cap, evictCallback := none, lookup := [], data := [] } }
        ↔ 0 ≤ cap)
    ∧ ({ cap := cap, evictCallback := cb, lookup := [], data := [] } : SimpleLRU W V).Len = 0
    ∧ ({ mu := { locked := false },
         simple := { cap := cap, evictCallback := cb, lookup := [], data := [] } }
          : LRU W V).Len = 0 :=
  ⟨New_error_iff cap cb, New_error_iff cap none, NewLRU_error_iff cap cb,
    NewLRU_error_iff cap none, New_ok_iff cap cb, New_ok_iff cap none, NewLRU_ok_iff cap cb,
    NewLRU_ok_iff cap none, rfl, rfl⟩

/-! ## The wrapper and the cache it wraps, one call after the other -/

/-- A call on an `LRU` whose lock is free is the call on the cache it wraps, and
leaves the lock free. -/
theorem LRU_step_unlocked {W V : Type} (s : SimpleLRU W V) (w : W) (c : Call V) :
    LRU.step { mu := { locked := false }, simple := s } w c
      = match step s w c.toOp with
        | .error f => .error f
        | .ok (s1, w1, r) => .ok ({ mu := { locked := false }, simple := s1 }, w1, r) := by
  cases c with
  | Set key val =>
    simp only [LRU.step, LRU.Set, RWMutex.Lock, RWMutex.Unlock, Call.toOp, step]
    rcases s.Set key val w with f | ⟨s1, w1⟩ <;> rfl
  | Get key =>
    simp only [LRU.step, LRU.Get, RWMutex.Lock, RWMutex.Unlock, Call.toOp, step]
    rcases s.Get key with f | ⟨s1, r⟩ <;> rfl
  | Remove key => rfl
  | Len => rfl

theorem LRU_run_unlocked {W V : Type} (cs : List (Call V)) (s : SimpleLRU W V) (w : W) :
    LRU.run { mu := { locked := false }, simple := s } w cs
      = match run s w (cs.map Call.toOp) with
        | .error f => .error f
        | .ok (s1, w1, rs) => .ok ({ mu := { locked := false }, simple := s1 }, w1, rs) := by
  induction cs generalizing s w with
  | nil => rfl
  | cons c cs ih =>
    simp only [LRU.run, List.map_cons, run, LRU_step_unlocked]
    rcases step s w c.toOp with f | ⟨s1, w1, r⟩
    · rfl
    · simp only [ih]
      rcases run s1 w1 (cs.map Call.toOp) with f | ⟨s2, w2, rs⟩ <;> rfl

/-- Claim C17, amended: for every capacity `c ≥ 0`, every callback that returns and does
not call the cache (a function on the world of the caller, or nil) and every
sequence of calls of `Set`, `Get`, `Remove` and `Len`, one after the other:
the calls on the `LRU` that `NewLRUWithEvict c cb` returns and the calls on
the `SimpleLRU` that `NewSimpleLRUWithEvict c cb` returns all return, with the
same results and the same world, the one that the callback called on the same
entities in the same order gives; the `LRU` then wraps the state of the
`SimpleLRU`, its lock free. -/
theorem LRU_same_as_SimpleLRU {W V : Type} (c : Int) (hc : 0 ≤ c)
    (cb : Option (EvictCallback W V)) (w0 : W) (cs : List (Call V)) :
    ∃ s0 l0 s rs, SimpleLRU.NewSimpleLRUWithEvict c cb = .ok s0
      ∧ LRU.NewLRUWithEvict c cb = .ok l0
      ∧ run s0 w0 (cs.map Call.toOp)
          = .ok (s, callEvictAll cb (evictedByAll c.toNat [] (cs.map Call.toOp)) w0, rs)
      ∧ LRU.run l0 w0 cs
          = .ok ({ mu := { locked := false }, simple := s },
              callEvictAll cb (evictedByAll c.toNat [] (cs.map Call.toOp)) w0, rs) := by
  obtain ⟨s0, h0, hinv0, hdata0, _, hcap0, hcb0⟩ := Inv_New cb hc
  have hent0 : entries s0 = [] := by simp [entries, hdata0]
  obtain ⟨s, h1, _⟩ := run_refines (cs.map Call.toOp) s0 w0 hinv0
  rw [hcap0, hcb0, hent0] at h1
  refine ⟨s0, { mu := { locked := false }, simple := s0 }, s, _, h0, ?_, h1, ?_⟩
  · simp only [LRU.NewLRUWithEvict, h0]
  · rw [LRU_run_unlocked, h1]

/-- Witness of claim C17, amended: capacity 2 and six calls, with the recording
callback. -/
theorem LRU_same_as_SimpleLRU_witness :
    (0 : Int) ≤ 2 ∧
    ∃ s0 l0 s rs, SimpleLRU.NewSimpleLRUWithEvict 2 (some recordEvict) = .ok s0
      ∧ LRU.NewLRUWithEvict 2 (some recordEvict) = .ok l0
      ∧ run s0 ([] : List (String × Nat)) ([Call.Set "a" 1, Call.Set "b" 2, Call.Get "a",
          Call.Set "c" 3, Call.Len, Call.Remove "a"].map Call.toOp)
          = .ok (s, [("b", 2)], rs)
      ∧ LRU.run l0 [] [Call.Set "a" 1, Call.Set "b" 2, Call.Get "a", Call.Set "c" 3,
          Call.Len, Call.Remove "a"]
          = .ok ({ mu := { locked := false }, simple := s }, [("b", 2)], rs) :=
  ⟨by decide, LRU_same_as_SimpleLRU 2 (by decide) (some recordEvict) []
    [Call.Set "a" 1, Call.Set "b" 2, Call.Get "a", Call.Set "c" 3, Call.Len,
      Call.Remove "a"]⟩

/-! ## The lock of the wrapper -/

/-- Claim C18 fails on `LRU.Len`. On an instance whose lock another call holds, `Set`,
`Get` and `Remove` wait for the lock and do not reach the cache; `Len` takes
no lock, reads the cache and returns, leaving the lock as it found it. -/
theorem LRU_Len_takes_no_lock {W V : Type} (s : SimpleLRU W V) (key : String) (val : V)
    (w : W) :
    LRU.Set { mu := { locked := true }, simple := s } key val w = .error Fault.blocked
    ∧ LRU.Get { mu := { locked := true }, simple := s } key = .error Fault.blocked
    ∧ LRU.Remove { mu := { locked := true }, simple := s } key = .error Fault.blocked
    ∧ LRU.Len { mu := { locked := true }, simple := s } = s.Len
    ∧ LRU.step { mu := { locked := true }, simple := s } w Call.Len
        = .ok ({ mu := { locked := true }, simple := s }, w, Ret.len s.Len) :=
  ⟨rfl, rfl, rfl, rfl, rfl⟩

/-! ## The cache at the call of the callback -/

theorem callObservingAll_cons {W V : Type} (cb : Option (ObservingCallback W V))
    (o : SimpleLRU Unit V × entity V) (obs : List (SimpleLRU Unit V × entity V)) (w : W) :
    callObservingAll cb (o :: obs) w
      = callObservingAll cb obs (callObserving cb o.1 o.2.key o.2.val w) := rfl

theorem WF_cacheView {W V : Type} {l : SimpleLRU W V} (h : WF l) : WF (cacheView l) :=
  ⟨h.ptrs, h.keys, h.index, h.capNonneg⟩

/-- The loop of `evict` for an observing callback that does not look at the cache
is the loop of `evict`. -/
theorem evictLoopObserved_ignoring {W V : Type} (cb : Option (EvictCallback W V))
    (fuel : Nat) (l : SimpleLRU W V) (w : W) (hcb : l.evictCallback = cb) :
    SimpleLRU.evictLoopObserved (cb.map (fun f _ => f)) fuel l w
      = SimpleLRU.evictLoop fuel l w := by
  induction fuel generalizing l w with
  | zero =>
    unfold SimpleLRU.evictLoopObserved SimpleLRU.evictLoop
    rfl
  | succ n ih =>
    unfold SimpleLRU.evictLoopObserved SimpleLRU.evictLoop
    by_cases hlen : l.Len > l.cap
    · rw [if_pos hlen, if_pos hlen]
      cases hb : GoList.Back l.data with
      | none => rfl
      | some ele =>
        have hw : callObserving (cb.map (fun f _ => f)) (cacheView l) ele.Value.key
            ele.Value.val w = callEvict l.evictCallback ele.Value.key ele.Value.val w := by
          rw [hcb]
          cases cb with
          | none => rfl
          | some f => rfl
        simp only
        rw [hw]
        exact ih _ _ hcb
    · rw [if_neg hlen, if_neg hlen]

/-- The loop of `evict` for an observing callback, on a well-formed state with
fuel for the length of the list: it returns, in the state in which the loop of
`evict` returns; the callback is called on the entities beyond the first
`cap`, the back one first, each time on a cache whose back element holds the
entity, in which `SimpleGet` finds it and `Len()` is above the capacity; the
state that the loop returns does not hold the keys of these entities. -/
theorem evictLoopObserved_spec {W V : Type} (cb : Option (ObservingCallback W V))
    (fuel : Nat) (l : SimpleLRU W V) (w : W) (h : WF l) (hf : l.data.length ≤ fuel) :
    ∃ l1 obs, SimpleLRU.evictLoopObserved cb fuel l w = .ok (l1, callObservingAll cb obs w)
      ∧ (∀ w1 : W, SimpleLRU.evictLoop fuel l w1
          = .ok (l1, callEvictAll l.evictCallback (obs.map Prod.snd) w1))
      ∧ obs.map Prod.snd = ((entries l).drop l.cap.toNat).reverse
      ∧ WF l1 ∧ l1.data = l.data.take l.cap.toNat ∧ l1.cap = l.cap
      ∧ ∀ o ∈ obs, o.1.SimpleGet o.2.key = .ok (o.1, (some o.2.val, true))
          ∧ o.1.cap < o.1.Len
          ∧ (∃ ele, GoList.Back o.1.data = some ele ∧ ele.Value = o.2)
          ∧ o.2.key ∉ keysOf l1 ∧ mapGet l1.lookup o.2.key = none := by
  induction fuel generalizing l w with
  | zero =>
    have hnil : l.data = [] := List.length_eq_zero.mp (Nat.le_zero.mp hf)
    have hcap := h.capNonneg
    have hlen : ¬ l.Len > l.cap := by
      simp [SimpleLRU.Len, GoList.Len, hnil]
      exact hcap
    refine ⟨l, [], ?_, ?_, ?_, h, by simp [hnil], rfl, by simp⟩
    · unfold SimpleLRU.evictLoopObserved
      rw [if_neg hlen]
      rfl
    · intro w1
      unfold SimpleLRU.evictLoop
      rw [if_neg hlen]
      rfl
    · simp [entries, hnil]
  | succ n ih =>
    have hcap := h.capNonneg
    by_cases hlen : l.Len > l.cap
    · have hlt : l.cap.toNat < l.data.length := by
        simp only [SimpleLRU.Len, GoList.Len] at hlen
        omega
      have hne : l.data ≠ [] := by
        intro h0
        rw [h0] at hlt
        simp at hlt
      obtain ⟨init, last, hdata⟩ : ∃ init last, l.data = init ++ [last] := by
        rcases List.eq_nil_or_concat l.data with h0 | ⟨init, last, h1⟩
        · exact absurd h0 hne
        · exact ⟨init, last, by simpa using h1⟩
      have hback : GoList.Back l.data = some last := by
        simp [GoList.Back, hdata]
      have hmem : last ∈ l.data := by simp [hdata]
      have hrem : GoList.Remove l.data last.ptr = init := by
        have hp := h.ptrs
        rw [hdata] at hp ⊢
        exact GoList.Remove_concat hp
      have hwf := h.delete last.Value.key
      rw [← GoList.Remove_eq_filter_key h.ptrs h.keys hmem, hrem] at hwf
      have hlen1 : init.length ≤ n := by
        have : l.data.length = init.length + 1 := by simp [hdata]
        omega
      have hc : l.cap.toNat ≤ init.length := by
        have : l.data.length = init.length + 1 := by simp [hdata]
        omega
      obtain ⟨l1, obs, h1, h2, h3, h4, h5, h6, h7⟩ := ih _
        (callObserving cb (cacheView l) last.Value.key last.Value.val w) hwf hlen1
      have hl1data : l1.data = l.data.take l.cap.toNat := by
        rw [h5, hdata]
        exact (List.take_append_of_le_length hc).symm
      have hlastkey : last.Value.key ∉ keysOf l1 := by
        intro hk
        have hkeys := h.keys
        rw [hdata, List.map_append, List.nodup_append] at hkeys
        rw [keysOf, h5] at hk
        obtain ⟨y, hy, hyk⟩ := List.mem_map.mp hk
        have hy1 : y.Value.key ∈ init.map (fun e : Element V => e.Value.key) :=
          List.mem_map_of_mem (fun e : Element V => e.Value.key) (List.mem_of_mem_take hy)
        rw [hyk] at hy1
        exact hkeys.2.2 hy1 (by simp)
      refine ⟨l1, (cacheView l, last.Value) :: obs, ?_, ?_, ?_, h4, hl1data, h6, ?_⟩
      · unfold SimpleLRU.evictLoopObserved
        rw [if_pos hlen]
        simp only [hback, hrem]
        rw [h1, callObservingAll_cons]
      · intro w1
        unfold SimpleLRU.evictLoop
        rw [if_pos hlen]
        simp only [hback, hrem]
        rw [h2, List.map_cons, callEvictAll_cons]
      · rw [List.map_cons, h3]
        have hdrop : (entries l).drop l.cap.toNat
            = (init.map (fun e => e.Value)).drop l.cap.toNat ++ [last.Value] := by
          simp only [entries, hdata, List.map_append, List.map_cons, List.map_nil]
          rw [List.drop_append_of_le_length (by simpa using hc)]
        rw [hdrop, List.reverse_append]
        rfl
      · intro o ho
        rcases List.mem_cons.mp ho with h0 | h0
        · subst h0
          refine ⟨SimpleGet_of_mem (cacheView l) (WF_cacheView h) hmem, hlen,
            ⟨last, hback, rfl⟩, hlastkey, h4.get_none_of_not_mem hlastkey⟩
        · exact h7 o h0
    · have hle : l.data.length ≤ l.cap.toNat := by
        simp only [SimpleLRU.Len, GoList.Len] at hlen
        omega
      refine ⟨l, [], ?_, ?_, ?_, h, ?_, rfl, by simp⟩
      · unfold SimpleLRU.evictLoopObserved
        rw [if_neg hlen]
        rfl
      · intro w1
        unfold SimpleLRU.evictLoop
        rw [if_neg hlen]
        rfl
      · have : (entries l).drop l.cap.toNat = [] := by
          apply List.drop_eq_nil_of_le
          simpa [entries] using hle
        simp [this]
      · rw [List.take_of_length_le hle]

/-- The state in which `Set` calls `evict` is the state in which `Set` for an
observing callback calls it. -/
theorem SetObserved_eq_evict {W V : Type} (cb : Option (ObservingCallback W V))
    (l : SimpleLRU W V) (key : String) (val : V) (h : WF l) :
    ∃ l3, (∀ w, l.SetObserved cb key val w = l3.evictObserved cb w)
      ∧ (∀ w, l.Set key val w = l3.evict w) ∧ WF l3
      ∧ entries l3 = ⟨key, val⟩ :: (entries l).filter (fun e => decide (e.key ≠ key))
      ∧ l3.cap = l.cap ∧ l3.evictCallback = l.evictCallback := by
  cases hg : mapGet l.lookup key with
  | none =>
    have hk := h.get_none hg
    have hwf := h.insert hk (freshPtr_not_mem l) val
    refine ⟨_, ?_, ?_, hwf, ?_, rfl, rfl⟩
    · intro w
      simp only [SimpleLRU.SetObserved, hg, GoList.PushFront, mapSet_of_none hg]
    · intro w
      simp only [SimpleLRU.Set, hg, GoList.PushFront, mapSet_of_none hg]
    · have hf := filter_key_of_not_mem hk
      simp only [entries, List.map_cons, ← entries_filter, hf]
  | some p =>
    obtain ⟨e, he, hek, hep, hat⟩ := h.get_some hg
    have hwf := h.touch he val
    refine ⟨_, ?_, ?_, hwf, ?_, rfl, rfl⟩
    · intro w
      simp only [SimpleLRU.SetObserved, hg, hat, GoList.MoveToFront,
        GoList.elementAt_assignVal val hat, GoList.filter_ptr_assignVal, mapSet_of_some hg]
      rw [← hep, GoList.Remove_eq_filter_key h.ptrs h.keys he]
    · intro w
      simp only [SimpleLRU.Set, hg, hat, GoList.MoveToFront,
        GoList.elementAt_assignVal val hat, GoList.filter_ptr_assignVal, mapSet_of_some hg]
      rw [← hep, GoList.Remove_eq_filter_key h.ptrs h.keys he]
    · simp only [entries, List.map_cons, ← entries_filter, hek]

/-- The method `Set` for an observing callback that does not look at the cache is
the method `Set`. -/
theorem SetObserved_ignoring {W V : Type} (l : SimpleLRU W V) (key : String) (val : V)
    (w : W) :
    l.SetObserved (l.evictCallback.map (fun f _ => f)) key val w = l.Set key val w := by
  cases hg : mapGet l.lookup key with
  | none =>
    simp only [SimpleLRU.SetObserved, SimpleLRU.Set, hg, SimpleLRU.evictObserved,
      SimpleLRU.evict]
    exact evictLoopObserved_ignoring l.evictCallback _ _ w rfl
  | some p =>
    cases hat : GoList.elementAt l.data p with
    | none => simp only [SimpleLRU.SetObserved, SimpleLRU.Set, hg, hat]
    | some e =>
      simp only [SimpleLRU.SetObserved, SimpleLRU.Set, hg, hat, SimpleLRU.evictObserved,
        SimpleLRU.evict]
      exact evictLoopObserved_ignoring l.evictCallback _ _ w rfl

/-- Counterexample to claim C16 as stated: a cache of capacity 1 that holds `("a", 1)`,
a state that `Set("a", 1)` produces from the constructor, and the call
`Set("b", 2)` with a callback that looks its key up in the cache. The callback
is called once, on `("a", 1)`, and then `SimpleGet("a")` returns `(1, true)`
and `Len()` returns 2: the entry is still in the cache. -/
theorem evict_removes_before_notifying_counterexample :
    Reachable (⟨1, none, [("a", 1)], [⟨1, ⟨"a", 1⟩⟩]⟩ : SimpleLRU (List (Observation Nat)) Nat)
    ∧ (⟨1, none, [("a", 1)], [⟨1, ⟨"a", 1⟩⟩]⟩ : SimpleLRU (List (Observation Nat)) Nat).SetObserved
        (some observeEvict) "b" 2 []
      = .ok (⟨1, none, [("b", 2)], [⟨2, ⟨"b", 2⟩⟩]⟩,
          [{ key := "a", val := 1, found := some (some 1, true), len := 2 }])
    ∧ ¬ (∀ l1 log,
        (⟨1, none, [("a", 1)], [⟨1, ⟨"a", 1⟩⟩]⟩ :
          SimpleLRU (List (Observation Nat)) Nat).SetObserved (some observeEvict) "b" 2 []
            = .ok (l1, log) →
        ∀ o ∈ log, o.found = some (none, false) ∧ o.len ≤ 1) := by
  refine ⟨⟨1, none, ⟨1, none, [], []⟩, [], [Op.Set "a" 1], [], [Ret.unit], rfl, rfl⟩, rfl, ?_⟩
  intro hall
  have h := hall _ _ rfl { key := "a", val := 1, found := some (some 1, true), len := 2 }
    (List.mem_singleton.mpr rfl)
  exact absurd h.1 (by decide)

/-- Claim C16, amended: in a reachable state, for every callback that reads the cache,
`Set(k, v)` returns, in the state in which `Set` returns for any callback, and
the callback is called on the entities that `Set` evicts, at most one, before
the entry is removed: each time the cache still holds the entity as its back
element, `SimpleGet` of its key returns its value and `true`, and `Len()` is
above the capacity. The entry is removed after the call: the state that
`Set` returns does not hold the key, in the list or in the index. -/
theorem evict_notifies_before_removing {W V : Type} (l : SimpleLRU W V) (h : Reachable l)
    (cb : Option (ObservingCallback W V)) (k : String) (v : V) (w : W) :
    ∃ l1 obs, l.SetObserved cb k v w = .ok (l1, callObservingAll cb obs w)
      ∧ (∀ w1 : W, l.Set k v w1
          = .ok (l1, callEvictAll l.evictCallback (obs.map Prod.snd) w1))
      ∧ obs.map Prod.snd = (((⟨k, v⟩ : entity V) :: (entries l).filter
          (fun e => decide (e.key ≠ k))).drop l.cap.toNat).reverse
      ∧ obs.length ≤ 1
      ∧ ∀ o ∈ obs, o.1.SimpleGet o.2.key = .ok (o.1, (some o.2.val, true))
          ∧ o.1.cap < o.1.Len
          ∧ (∃ ele, GoList.Back o.1.data = some ele ∧ ele.Value = o.2)
          ∧ o.2.key ∉ keysOf l1 ∧ mapGet l1.lookup o.2.key = none := by
  have hinv := h.inv
  obtain ⟨l3, h1, h2, h3, h4, h5, h6⟩ := SetObserved_eq_evict cb l k v hinv.1
  obtain ⟨l1, obs, e1, e2, e3, _, _, _, e7⟩ := evictLoopObserved_spec cb l3.data.length l3 w h3
    le_rfl
  rw [h4, h5] at e3
  refine ⟨l1, obs, ?_, ?_, e3, ?_, e7⟩
  · rw [h1]
    exact e1
  · intro w1
    rw [h2, ← h6]
    exact e2 w1
  · have hlen : obs.length = (obs.map Prod.snd).length := by simp
    have hle := entries_length_le hinv
    have hflen : ((entries l).filter (fun e => decide (e.key ≠ k))).length
        ≤ (entries l).length := List.length_filter_le _ _
    rw [hlen, e3]
    simp only [List.length_reverse, List.length_drop, List.length_cons]
    omega

/-- Witness of claim C16, amended: a full cache of capacity 1 and the new key `"b"`, with
the callback that looks its key up. -/
theorem evict_notifies_before_removing_witness :
    Reachable (⟨1, none, [("a", 1)], [⟨1, ⟨"a", 1⟩⟩]⟩ : SimpleLRU (List (Observation Nat)) Nat)
    ∧ ∃ l1 obs, (⟨1, none, [("a", 1)], [⟨1, ⟨"a", 1⟩⟩]⟩ :
        SimpleLRU (List (Observation Nat)) Nat).SetObserved (some observeEvict) "b" 2 []
          = .ok (l1, callObservingAll (some observeEvict) obs [])
      ∧ obs.map Prod.snd = [⟨"a", 1⟩]
      ∧ ∀ o ∈ obs, o.1.SimpleGet o.2.key = .ok (o.1, (some o.2.val, true))
          ∧ o.1.cap < o.1.Len
          ∧ (∃ ele, GoList.Back o.1.data = some ele ∧ ele.Value = o.2)
          ∧ o.2.key ∉ keysOf l1 ∧ mapGet l1.lookup o.2.key = none :=
  have hreach : Reachable (⟨1, none, [("a", 1)], [⟨1, ⟨"a", 1⟩⟩]⟩ :
      SimpleLRU (List (Observation Nat)) Nat) :=
    ⟨1, none, ⟨1, none, [], []⟩, [], [Op.Set "a" 1], [], [Ret.unit], rfl, rfl⟩
  ⟨hreach,
    let ⟨l1, obs, h1, _, h3, _, h5⟩ := evict_notifies_before_removing _ hreach
      (some observeEvict) "b" 2 []
    ⟨l1, obs, h1, h3, h5⟩⟩

/-! ## A callback that panics, and the callbacks that return -/

/-- The loop of `evict` for a callback that may panic and never does is the loop
of `evict`. -/
theorem evictLoopPanicking_total {W V : Type} (cb : Option (EvictCallback W V))
    (fuel : Nat) (l : SimpleLRU W V) (w : W) (hcb : l.evictCallback = cb) :
    SimpleLRU.evictLoopPanicking (cb.map (fun f k v w => some (f k v w))) fuel l w
      = Outcome.ofExcept (SimpleLRU.evictLoop fuel l w) := by
  induction fuel generalizing l w with
  | zero =>
    unfold SimpleLRU.evictLoopPanicking SimpleLRU.evictLoop
    by_cases hlen : l.Len > l.cap
    · rw [if_pos hlen, if_pos hlen]
      cases hb : GoList.Back l.data with
      | none => rfl
      | some ele => rfl
    · rw [if_neg hlen, if_neg hlen]
      rfl
  | succ n ih =>
    unfold SimpleLRU.evictLoopPanicking SimpleLRU.evictLoop
    by_cases hlen : l.Len > l.cap
    · rw [if_pos hlen, if_pos hlen]
      cases hb : GoList.Back l.data with
      | none => rfl
      | some ele =>
        have hw : callPanicking (cb.map (fun f k v w => some (f k v w))) ele.Value.key
            ele.Value.val w = some (callEvict l.evictCallback ele.Value.key ele.Value.val w) := by
          rw [hcb]
          cases cb with
          | none => rfl
          | some f => rfl
        simp only [hw]
        exact ih _ _ hcb
    · rw [if_neg hlen, if_neg hlen]
      rfl

/-- The method `Set` for a callback that may panic and never does is the method
`Set`. -/
theorem SetPanicking_total {W V : Type} (l : SimpleLRU W V) (key : String) (val : V)
    (w : W) :
    l.SetPanicking (l.evictCallback.map (fun f k v w => some (f k v w))) key val w
      = Outcome.ofExcept (l.Set key val w) := by
  cases hg : mapGet l.lookup key with
  | none =>
    simp only [SimpleLRU.SetPanicking, SimpleLRU.Set, hg, SimpleLRU.evictPanicking,
      SimpleLRU.evict]
    exact evictLoopPanicking_total l.evictCallback _ _ w rfl
  | some p =>
    cases hat : GoList.elementAt l.data p with
    | none =>
      simp only [SimpleLRU.SetPanicking, SimpleLRU.Set, hg, hat]
      rfl
    | some e =>
      simp only [SimpleLRU.SetPanicking, SimpleLRU.Set, hg, hat, SimpleLRU.evictPanicking,
        SimpleLRU.evict]
      exact evictLoopPanicking_total l.evictCallback _ _ w rfl

/-- Counterexample to claim C1 as stated: a callback that panics. On the cache of
capacity 1, `Set("a", 1)` returns; `Set("b", 2)` inserts `"b"`, finds `Len()`
above the capacity and calls the callback on `("a", 1)`, which panics before
`delete` and `Remove`: the cache is left holding `"b"` and `"a"`, `Len()` is 2.
The caller recovers the panic and calls `Get("a")`, which returns `(1, true)`
with `Len()` still 2, above the capacity 1. -/
theorem len_le_cap_fails_after_panic_counterexample :
    SimpleLRU.NewSimpleLRUWithEvict 1 none = .ok (⟨1, none, [], []⟩ : SimpleLRU Unit Nat)
    ∧ (⟨1, none, [], []⟩ : SimpleLRU Unit Nat).SetPanicking (some alwaysPanics) "a" 1 ()
      = .returned ⟨1, none, [("a", 1)], [⟨1, ⟨"a", 1⟩⟩]⟩ ()
    ∧ (⟨1, none, [("a", 1)], [⟨1, ⟨"a", 1⟩⟩]⟩ : SimpleLRU Unit Nat).SetPanicking
        (some alwaysPanics) "b" 2 ()
      = .panicked ⟨1, none, [("a", 1), ("b", 2)], [⟨2, ⟨"b", 2⟩⟩, ⟨1, ⟨"a", 1⟩⟩]⟩ ()
    ∧ (⟨1, none, [("a", 1), ("b", 2)], [⟨2, ⟨"b", 2⟩⟩, ⟨1, ⟨"a", 1⟩⟩]⟩ :
        SimpleLRU Unit Nat).Len = 2
    ∧ (⟨1, none, [("a", 1), ("b", 2)], [⟨2, ⟨"b", 2⟩⟩, ⟨1, ⟨"a", 1⟩⟩]⟩ :
        SimpleLRU Unit Nat).Get "a"
      = .ok (⟨1, none, [("a", 1), ("b", 2)], [⟨1, ⟨"a", 1⟩⟩, ⟨2, ⟨"b", 2⟩⟩]⟩, (some 1, true))
    ∧ ¬ ((⟨1, none, [("a", 1), ("b", 2)], [⟨1, ⟨"a", 1⟩⟩, ⟨2, ⟨"b", 2⟩⟩]⟩ :
        SimpleLRU Unit Nat).Len ≤ 1) :=
  ⟨rfl, rfl, rfl, rfl, rfl, by decide⟩

/-- Counterexample to claim C17 as stated: a callback that panics. On the `SimpleLRU`
and on the `LRU` of capacity 1, `Set("a", 1)` returns and `Set("b", 2)` ends in
the panic of the callback, called on `("a", 1)`; in `LRU.Set` the panic passes
`l.mu.Unlock()` by, and the lock stays held. The caller recovers the panic and
calls `Get("a")`: the `SimpleLRU` returns `(1, true)`, the `LRU` waits for its
own lock and does not return. -/
theorem LRU_differs_after_panic_counterexample :
    SimpleLRU.NewSimpleLRUWithEvict 1 none = .ok (⟨1, none, [], []⟩ : SimpleLRU Unit Nat)
    ∧ LRU.NewLRUWithEvict 1 none
      = .ok (⟨⟨false⟩, ⟨1, none, [], []⟩⟩ : LRU Unit Nat)
    ∧ (⟨1, none, [], []⟩ : SimpleLRU Unit Nat).SetPanicking (some alwaysPanics) "a" 1 ()
      = .returned ⟨1, none, [("a", 1)], [⟨1, ⟨"a", 1⟩⟩]⟩ ()
    ∧ (⟨⟨false⟩, ⟨1, none, [], []⟩⟩ : LRU Unit Nat).SetPanicking (some alwaysPanics) "a" 1 ()
      = .returned ⟨⟨false⟩, ⟨1, none, [("a", 1)], [⟨1, ⟨"a", 1⟩⟩]⟩⟩ ()
    ∧ (⟨1, none, [("a", 1)], [⟨1, ⟨"a", 1⟩⟩]⟩ : SimpleLRU Unit Nat).SetPanicking
        (some alwaysPanics) "b" 2 ()
      = .panicked ⟨1, none, [("a", 1), ("b", 2)], [⟨2, ⟨"b", 2⟩⟩, ⟨1, ⟨"a", 1⟩⟩]⟩ ()
    ∧ (⟨⟨false⟩, ⟨1, none, [("a", 1)], [⟨1, ⟨"a", 1⟩⟩]⟩⟩ : LRU Unit Nat).SetPanicking
        (some alwaysPanics) "b" 2 ()
      = .panicked ⟨⟨true⟩, ⟨1, none, [("a", 1), ("b", 2)],
          [⟨2, ⟨"b", 2⟩⟩, ⟨1, ⟨"a", 1⟩⟩]⟩⟩ ()
    ∧ (⟨1, none, [("a", 1), ("b", 2)], [⟨2, ⟨"b", 2⟩⟩, ⟨1, ⟨"a", 1⟩⟩]⟩ :
        SimpleLRU Unit Nat).Get "a"
      = .ok (⟨1, none, [("a", 1), ("b", 2)], [⟨1, ⟨"a", 1⟩⟩, ⟨2, ⟨"b", 2⟩⟩]⟩, (some 1, true))
    ∧ (⟨⟨true⟩, ⟨1, none, [("a", 1), ("b", 2)], [⟨2, ⟨"b", 2⟩⟩, ⟨1, ⟨"a", 1⟩⟩]⟩⟩ :
        LRU Unit Nat).Get "a" = .error Fault.blocked
    ∧ ¬ (∃ r s1 l1,
        (⟨1, none, [("a", 1), ("b", 2)], [⟨2, ⟨"b", 2⟩⟩, ⟨1, ⟨"a", 1⟩⟩]⟩ :
          SimpleLRU Unit Nat).Get "a" = .ok (s1, r)
        ∧ (⟨⟨true⟩, ⟨1, none, [("a", 1), ("b", 2)], [⟨2, ⟨"b", 2⟩⟩, ⟨1, ⟨"a", 1⟩⟩]⟩⟩ :
          LRU Unit Nat).Get "a" = .ok (l1, r)) := by
  refine ⟨rfl, rfl, rfl, rfl, rfl, rfl, rfl, rfl, ?_⟩
  rintro ⟨r, s1, l1, _, h2⟩
  have h3 : (⟨⟨true⟩, ⟨1, none, [("a", 1), ("b", 2)],
      [⟨2, ⟨"b", 2⟩⟩, ⟨1, ⟨"a", 1⟩⟩]⟩⟩ : LRU Unit Nat).Get "a" = .error Fault.blocked := rfl
  rw [h3] at h2
  cases h2

end Collections
